import Mathlib

/-!
# Verification of the maze generator / solver / navigator

Shallow embedding of `static/js/maze.js` and `static/js/solver.js`.

A cell is the JS array `[top, right, bottom, left, visited]`; a wall flag
`true` means the wall is present (JS `1`), `false` means it was knocked
down (JS `0`).  The maze is a `WIDTH × HEIGHT` grid of cells, addressed by
`(w, h)` with `(0,0)` in the top-left corner, `w` growing rightward and
`h` growing downward.  The JS 2-dimensional array is embedded as a total
function `ℕ → ℕ → Cell`; all array accesses made by the generator and the
solver are in bounds, so the values of the function outside
`[0, WIDTH) × [0, HEIGHT)` are never observed.  `Math.random()` draws are
embedded as an explicit stream `ρ : ℕ → ℕ` of index draws (reduced mod the
list length, as `Math.floor(Math.random()*len)` always lands in
`[0, len)`), threaded through the generator by a counter.
-/

namespace MazeApp

/-- One maze cell: the JS array `[top, right, bottom, left, visited]`.
`true` for a wall flag means the wall is up (JS `1`). -/
structure Cell where
  top : Bool
  right : Bool
  bottom : Bool
  left : Bool
  visited : Bool
deriving DecidableEq

/-- The initial cell created by the allocation loop in `LoadMaze`:
all four walls up, not visited. -/
def initCell : Cell := ⟨true, true, true, true, false⟩

/-- The maze grid: the JS 2-dimensional array `Maze`, as a total function. -/
def MazeGrid := ℕ → ℕ → Cell

/-- The fully walled `WIDTH × HEIGHT` grid built by the allocation loop in
`LoadMaze` (every in-range cell is `initCell`; out-of-range values are
never observed). -/
def initGrid : MazeGrid := fun _ _ => initCell

/-- Update a single cell of the grid (JS `Maze[x][y] = c`). -/
def setCell (m : MazeGrid) (x y : ℕ) (c : Cell) : MazeGrid :=
  fun a b => if a = x ∧ b = y then c else m a b

/-- Read the wall flag of a cell on side `side`
(`0` = top, `1` = right, `2` = bottom, `3` = left), as in
`Maze[x][y][side]`.  Out-of-range side indices read as a present wall;
the sources only use sides `0..3`. -/
def wallSide (c : Cell) (side : ℕ) : Bool :=
  if side = 0 then c.top
  else if side = 1 then c.right
  else if side = 2 then c.bottom
  else if side = 3 then c.left
  else true

/-- Clear (knock down) the wall flag of a cell on side `side`. -/
def clearSide (c : Cell) (side : ℕ) : Cell :=
  if side = 0 then { c with top := false }
  else if side = 1 then { c with right := false }
  else if side = 2 then { c with bottom := false }
  else if side = 3 then { c with left := false }
  else c

/-- Mark a cell visited (JS `Maze[x][y][4] = true`). -/
def markVisited (m : MazeGrid) (x y : ℕ) : MazeGrid :=
  setCell m x y { m x y with visited := true }

/-- In-bounds predicate for a cell coordinate. -/
def inb (W H : ℕ) (p : ℕ × ℕ) : Prop := p.1 < W ∧ p.2 < H

instance (W H : ℕ) (p : ℕ × ℕ) : Decidable (inb W H p) := by
  unfold inb; infer_instance

/-- JS `GetNeighbors(w, h)`: the in-bounds neighbors of `(w,h)`, in source
order: above, right, below, left. -/
def GetNeighbors (W H w h : ℕ) : List (ℕ × ℕ) :=
  (if h ≠ 0 then [(w, h - 1)] else []) ++
  (if w < W - 1 then [(w + 1, h)] else []) ++
  (if h < H - 1 then [(w, h + 1)] else []) ++
  (if w ≠ 0 then [(w - 1, h)] else [])

/-- Swap the entries at positions `i` and `j` of a list (the body of the
loop in `ShuffleNeighbors`: a deep-copied three-assignment swap). -/
def swapAt (l : List α) (i j : ℕ) : List α :=
  match l.get? i, l.get? j with
  | some a, some b => (l.set i b).set j a
  | _, _ => l

/-- The loop of JS `ShuffleNeighbors`: for `i = 0 .. len-1`, swap
position `i` with a drawn position `ds i % len`.  `fuel` counts the
remaining iterations (initially the list length). -/
def shuffleGo (ds : ℕ → ℕ) : ℕ → ℕ → List α → List α
  | 0, _, l => l
  | Nat.succ fuel, i, l => shuffleGo ds fuel (i + 1) (swapAt l i (ds i % l.length))

/-- JS `ShuffleNeighbors(neighbors)` with the stream of
`Math.floor(Math.random()*length)` draws made explicit. -/
def ShuffleNeighbors (ds : ℕ → ℕ) (l : List (ℕ × ℕ)) : List (ℕ × ℕ) :=
  shuffleGo ds l.length 0 l

/-- JS `RemoveWall(w, h, neighbor)`: knock down the matched pair of wall
flags between `(w,h)` and the adjacent `neighbor`, chosen by comparing
coordinates exactly as the source does. -/
def RemoveWall (m : MazeGrid) (w h : ℕ) (n : ℕ × ℕ) : MazeGrid :=
  if n.2 < h then
    setCell (setCell m w h (clearSide (m w h) 0)) n.1 n.2
      (clearSide ((setCell m w h (clearSide (m w h) 0)) n.1 n.2) 2)
  else if h < n.2 then
    setCell (setCell m w h (clearSide (m w h) 2)) n.1 n.2
      (clearSide ((setCell m w h (clearSide (m w h) 2)) n.1 n.2) 0)
  else if w < n.1 then
    setCell (setCell m w h (clearSide (m w h) 1)) n.1 n.2
      (clearSide ((setCell m w h (clearSide (m w h) 1)) n.1 n.2) 3)
  else if n.1 < w then
    setCell (setCell m w h (clearSide (m w h) 3)) n.1 n.2
      (clearSide ((setCell m w h (clearSide (m w h) 3)) n.1 n.2) 1)
  else m

/-- Generator state: the maze grid plus the position of the next unread
`Math.random()` draw in the stream. -/
structure GenSt where
  maze : MazeGrid
  k : ℕ

mutual

/-- JS `GenerateMaze(w, h)` (the recursive randomized carver), with an
explicit fuel argument bounding the recursion depth; the theorems below
only use fuel large enough that it is never exhausted. -/
def GenerateMaze (ρ : ℕ → ℕ) (W H : ℕ) : ℕ → ℕ × ℕ → GenSt → GenSt
  | 0, _, st => st
  | Nat.succ fuel, p, st =>
    let m1 := markVisited st.maze p.1 p.2
    let ns0 := GetNeighbors W H p.1 p.2
    let ns := ShuffleNeighbors (fun i => ρ (st.k + i)) ns0
    genLoop ρ W H fuel p ns { maze := m1, k := st.k + ns0.length }
  termination_by fuel _ _ => (fuel, 0, 0)

/-- The `for` loop over the shuffled neighbor list inside
`GenerateMaze`. -/
def genLoop (ρ : ℕ → ℕ) (W H : ℕ) : ℕ → ℕ × ℕ → List (ℕ × ℕ) → GenSt → GenSt
  | _, _, [], st => st
  | fuel, p, n :: rest, st =>
    if (st.maze n.1 n.2).visited = false then
      genLoop ρ W H fuel p rest
        (GenerateMaze ρ W H fuel n { st with maze := RemoveWall st.maze p.1 p.2 n })
    else
      genLoop ρ W H fuel p rest st
  termination_by fuel _ l _ => (fuel, 1, l.length)

end

/-- JS `InstallDoors()`: knock down the designated entrance wall on the
entrance cell and the designated exit wall on the exit ("starting")
cell.  The source is a sequence of eight `if`s over the side codes; only
the matching ones fire, which is exactly `clearSide`. -/
def InstallDoors (m : MazeGrid) (ex ey : ℕ) (enterSide : ℕ) (sx sy : ℕ)
    (exitSide : ℕ) : MazeGrid :=
  let m1 := if enterSide ≤ 3 then setCell m ex ey (clearSide (m ex ey) enterSide) else m
  if exitSide ≤ 3 then setCell m1 sx sy (clearSide (m1 sx sy) exitSide) else m1

/-- The grid produced by `LoadMaze`'s generation phase: allocate the
all-walls grid, run `GenerateMaze(STARTING_X, STARTING_Y)` (carving is
rooted at the exit cell), then `InstallDoors()`.  Fuel `W*H` suffices:
each recursive call consumes one previously unvisited cell. -/
def GeneratedGrid (ρ : ℕ → ℕ) (W H sx sy ex ey enterSide exitSide : ℕ) : MazeGrid :=
  InstallDoors (GenerateMaze ρ W H (W * H) (sx, sy) { maze := initGrid, k := 0 }).maze
    ex ey enterSide sx sy exitSide

/-! ## Shuffle fairness (claim C2) -/

/-- A 3-element neighbor list (three distinct coordinates), used as input
to `ShuffleNeighbors`. -/
def shuffleInput3 : List (ℕ × ℕ) := [(0, 0), (1, 0), (2, 0)]

/-- Run `ShuffleNeighbors` on the 3-element list under one triple of
index draws, each uniform over `0..2` (the model of the three
`Math.floor(Math.random()*3)` calls). -/
def shuffleOf3 (d : Fin 3 × Fin 3 × Fin 3) : List (ℕ × ℕ) :=
  ShuffleNeighbors
    (fun i => if i = 0 then (d.1 : ℕ) else if i = 1 then (d.2.1 : ℕ) else (d.2.2 : ℕ))
    shuffleInput3

/-- C2: `ShuffleNeighbors` is NOT an unbiased permutation.  Modeling the
three index draws for a 3-element neighbor list as independent uniform
choices over `0..2` (the claim's own model), the 27 equiprobable draw
triples produce the rotation `[(1,0),(2,0),(0,0)]` five times but the
identity arrangement only four times, so the two permutations have
probabilities `5/27 ≠ 4/27`; an unbiased shuffle would give each
permutation probability `1/6`.  This is the classic naive-shuffle bias:
the source swaps position `i` with an index drawn from the whole list
rather than from the tail. -/
theorem shuffle_of_three_not_uniform :
    ((Finset.univ.filter fun d : Fin 3 × Fin 3 × Fin 3 =>
        shuffleOf3 d = [(1, 0), (2, 0), (0, 0)]).card = 5 ∧
      (Finset.univ.filter fun d : Fin 3 × Fin 3 × Fin 3 =>
        shuffleOf3 d = shuffleInput3).card = 4) ∧ (5 : ℕ) ≠ 4 := by
  decide

/-! ## Grid geometry -/

/-- Two coordinates are adjacent (share a side).  The four disjuncts are:
`q` above `p`, `q` right of `p`, `q` below `p`, `q` left of `p`. -/
def adjacent (p q : ℕ × ℕ) : Prop :=
  (p.1 = q.1 ∧ p.2 = q.2 + 1) ∨ (q.1 = p.1 + 1 ∧ p.2 = q.2) ∨
  (p.1 = q.1 ∧ q.2 = p.2 + 1) ∨ (p.1 = q.1 + 1 ∧ p.2 = q.2)

instance (p q : ℕ × ℕ) : Decidable (adjacent p q) := by
  unfold adjacent; infer_instance

theorem adjacent_symm {p q : ℕ × ℕ} (h : adjacent p q) : adjacent q p := by
  unfold adjacent at *; omega

theorem adjacent_ne {p q : ℕ × ℕ} (h : adjacent p q) : p ≠ q := by
  unfold adjacent at h
  intro he; rw [he] at h; omega

/-- The wall flag of cell `p` on the side facing the adjacent cell `q`
("A's wall facing B"). -/
def flagToward (m : MazeGrid) (p q : ℕ × ℕ) : Bool :=
  if p.2 = q.2 + 1 then (m p.1 p.2).top
  else if q.1 = p.1 + 1 then (m p.1 p.2).right
  else if q.2 = p.2 + 1 then (m p.1 p.2).bottom
  else (m p.1 p.2).left

/-- Side `side` of cell `p` faces out of the `W × H` grid. -/
def outFacing (W H : ℕ) (p : ℕ × ℕ) (side : ℕ) : Prop :=
  (side = 0 ∧ p.2 = 0) ∨ (side = 1 ∧ W ≤ p.1 + 1) ∨
  (side = 2 ∧ H ≤ p.2 + 1) ∨ (side = 3 ∧ p.1 = 0)

instance (W H : ℕ) (p : ℕ × ℕ) (side : ℕ) : Decidable (outFacing W H p side) := by
  unfold outFacing; infer_instance

/-! ## Pointwise lemmas about the cell updates -/

theorem setCell_self (m : MazeGrid) (x y : ℕ) (c : Cell) : setCell m x y c x y = c := by
  simp [setCell]

theorem setCell_other (m : MazeGrid) (x y : ℕ) (c : Cell) {a b : ℕ}
    (h : ¬(a = x ∧ b = y)) : setCell m x y c a b = m a b := by
  simp [setCell, h]

theorem clearSide_visited (c : Cell) (s : ℕ) : (clearSide c s).visited = c.visited := by
  unfold clearSide; split_ifs <;> rfl

theorem wallSide_clearSide_self (c : Cell) {s : ℕ} (h : s ≤ 3) :
    wallSide (clearSide c s) s = false := by
  interval_cases s <;> simp [clearSide, wallSide]

theorem wallSide_clearSide_other (c : Cell) {s t : ℕ} (h : s ≠ t) :
    wallSide (clearSide c s) t = wallSide c t := by
  unfold clearSide wallSide
  split_ifs <;> simp_all

theorem markVisited_self (m : MazeGrid) (x y : ℕ) :
    markVisited m x y x y = { m x y with visited := true } := by
  simp [markVisited, setCell_self]

theorem markVisited_other (m : MazeGrid) (x y : ℕ) {a b : ℕ} (h : ¬(a = x ∧ b = y)) :
    markVisited m x y a b = m a b := by
  simp [markVisited, setCell, h]

theorem markVisited_walls (m : MazeGrid) (x y a b : ℕ) (s : ℕ) :
    wallSide (markVisited m x y a b) s = wallSide (m a b) s := by
  by_cases h : a = x ∧ b = y
  · obtain ⟨rfl, rfl⟩ := h
    rw [markVisited_self]
    unfold wallSide; split_ifs <;> rfl
  · rw [markVisited_other _ _ _ h]

/-- `RemoveWall` toward the neighbor above: knocks down `p`'s top wall
and the neighbor's bottom wall, leaving every other cell unchanged. -/
theorem RemoveWall_above (m : MazeGrid) (w h hn : ℕ) (he : h = hn + 1) :
    RemoveWall m w h (w, hn) = fun a b =>
      if a = w ∧ b = h then { m w h with top := false }
      else if a = w ∧ b = hn then { m w hn with bottom := false }
      else m a b := by
  subst he
  funext a b
  unfold RemoveWall
  simp only [setCell, clearSide]
  split_ifs <;>
    first | rfl | omega | (simp only [setCell]; split_ifs <;> first | rfl | omega | simp_all)
/-- `RemoveWall` toward the neighbor below. -/
theorem RemoveWall_below (m : MazeGrid) (w h hn : ℕ) (he : hn = h + 1) :
    RemoveWall m w h (w, hn) = fun a b =>
      if a = w ∧ b = h then { m w h with bottom := false }
      else if a = w ∧ b = hn then { m w hn with top := false }
      else m a b := by
  subst he
  funext a b
  unfold RemoveWall
  simp only [setCell, clearSide]
  split_ifs <;>
    first | rfl | omega | (simp only [setCell]; split_ifs <;> first | rfl | omega | simp_all)
/-- `RemoveWall` toward the neighbor to the right. -/
theorem RemoveWall_right (m : MazeGrid) (w h wn : ℕ) (he : wn = w + 1) :
    RemoveWall m w h (wn, h) = fun a b =>
      if a = w ∧ b = h then { m w h with right := false }
      else if a = wn ∧ b = h then { m wn h with left := false }
      else m a b := by
  subst he
  funext a b
  unfold RemoveWall
  simp only [setCell, clearSide]
  split_ifs <;>
    first | rfl | omega | (simp only [setCell]; split_ifs <;> first | rfl | omega | simp_all)
/-- `RemoveWall` toward the neighbor to the left. -/
theorem RemoveWall_left (m : MazeGrid) (w h wn : ℕ) (he : w = wn + 1) :
    RemoveWall m w h (wn, h) = fun a b =>
      if a = w ∧ b = h then { m w h with left := false }
      else if a = wn ∧ b = h then { m wn h with right := false }
      else m a b := by
  subst he
  funext a b
  unfold RemoveWall
  simp only [setCell, clearSide]
  split_ifs <;>
    first | rfl | omega | (simp only [setCell]; split_ifs <;> first | rfl | omega | simp_all)
/-- The side index (`0` top, `1` right, `2` bottom, `3` left) of cell `p`
facing the adjacent cell `q`. -/
def dirTo (p q : ℕ × ℕ) : ℕ :=
  if p.2 = q.2 + 1 then 0 else if q.1 = p.1 + 1 then 1
  else if q.2 = p.2 + 1 then 2 else 3

theorem flagToward_def (m : MazeGrid) (p q : ℕ × ℕ) :
    flagToward m p q = wallSide (m p.1 p.2) (dirTo p q) := by
  unfold flagToward dirTo
  split_ifs <;> simp [wallSide]

theorem dirTo_above {p q : ℕ × ℕ} (h : p.1 = q.1 ∧ p.2 = q.2 + 1) :
    dirTo p q = 0 ∧ dirTo q p = 2 := by
  unfold dirTo; constructor <;> (split_ifs <;> omega)

theorem dirTo_right {p q : ℕ × ℕ} (h : q.1 = p.1 + 1 ∧ p.2 = q.2) :
    dirTo p q = 1 ∧ dirTo q p = 3 := by
  unfold dirTo; constructor <;> (split_ifs <;> omega)

theorem dirTo_below {p q : ℕ × ℕ} (h : p.1 = q.1 ∧ q.2 = p.2 + 1) :
    dirTo p q = 2 ∧ dirTo q p = 0 := by
  unfold dirTo; constructor <;> (split_ifs <;> omega)

theorem dirTo_left {p q : ℕ × ℕ} (h : p.1 = q.1 + 1 ∧ p.2 = q.2) :
    dirTo p q = 3 ∧ dirTo q p = 1 := by
  unfold dirTo; constructor <;> (split_ifs <;> omega)

/-- `RemoveWall` never changes a visited flag. -/
theorem RemoveWall_visited (m : MazeGrid) {p n : ℕ × ℕ} (h : adjacent p n) (a b : ℕ) :
    ((RemoveWall m p.1 p.2 n) a b).visited = (m a b).visited := by
  obtain ⟨p1, p2⟩ := p
  obtain ⟨n1, n2⟩ := n
  simp only [adjacent] at h
  rcases h with ⟨h1, h2⟩ | ⟨h1, h2⟩ | ⟨h1, h2⟩ | ⟨h1, h2⟩
  · rw [show ((p1, p2).1 : ℕ) = p1 from rfl, show ((p1, p2).2 : ℕ) = p2 from rfl] at *
    subst h1
    rw [RemoveWall_above m p1 p2 n2 h2]
    beta_reduce
    split_ifs <;> simp_all
  · subst h2
    rw [RemoveWall_right m p1 p2 n1 h1]
    beta_reduce
    split_ifs <;> simp_all
  · subst h1
    rw [RemoveWall_below m p1 p2 n2 h2]
    beta_reduce
    split_ifs <;> simp_all
  · subst h2
    rw [RemoveWall_left m p1 p2 n1 h1]
    beta_reduce
    split_ifs <;> simp_all

/-- `RemoveWall` leaves every wall flag unchanged except the matched pair
between `p` and `n`. -/
theorem RemoveWall_wallSide_other (m : MazeGrid) {p n : ℕ × ℕ} (h : adjacent p n)
    (a b side : ℕ) (h1 : ¬((a, b) = p ∧ side = dirTo p n))
    (h2 : ¬((a, b) = n ∧ side = dirTo n p)) :
    wallSide ((RemoveWall m p.1 p.2 n) a b) side = wallSide (m a b) side := by
  obtain ⟨p1, p2⟩ := p
  obtain ⟨n1, n2⟩ := n
  simp only [adjacent] at h
  simp only [Prod.mk.injEq] at h1 h2
  rcases h with ⟨hc1, hc2⟩ | ⟨hc1, hc2⟩ | ⟨hc1, hc2⟩ | ⟨hc1, hc2⟩
  · obtain ⟨d1, d2⟩ := dirTo_above (p := (p1, p2)) (q := (n1, n2)) ⟨hc1, hc2⟩
    rw [d1] at h1; rw [d2] at h2
    subst hc1
    rw [RemoveWall_above m p1 p2 n2 hc2]
    beta_reduce
    split_ifs with ha hb <;>
      [skip; skip; rfl] <;> unfold wallSide <;> split_ifs <;> simp_all
  · obtain ⟨d1, d2⟩ := dirTo_right (p := (p1, p2)) (q := (n1, n2)) ⟨hc1, hc2⟩
    rw [d1] at h1; rw [d2] at h2
    subst hc2
    rw [RemoveWall_right m p1 p2 n1 hc1]
    beta_reduce
    split_ifs with ha hb <;>
      [skip; skip; rfl] <;> unfold wallSide <;> split_ifs <;> simp_all
  · obtain ⟨d1, d2⟩ := dirTo_below (p := (p1, p2)) (q := (n1, n2)) ⟨hc1, hc2⟩
    rw [d1] at h1; rw [d2] at h2
    subst hc1
    rw [RemoveWall_below m p1 p2 n2 hc2]
    beta_reduce
    split_ifs with ha hb <;>
      [skip; skip; rfl] <;> unfold wallSide <;> split_ifs <;> simp_all
  · obtain ⟨d1, d2⟩ := dirTo_left (p := (p1, p2)) (q := (n1, n2)) ⟨hc1, hc2⟩
    rw [d1] at h1; rw [d2] at h2
    subst hc2
    rw [RemoveWall_left m p1 p2 n1 hc1]
    beta_reduce
    split_ifs with ha hb <;>
      [skip; skip; rfl] <;> unfold wallSide <;> split_ifs <;> simp_all

/-- `RemoveWall` knocks down both matched flags between `p` and `n`. -/
theorem RemoveWall_flag (m : MazeGrid) {p n : ℕ × ℕ} (h : adjacent p n) :
    flagToward (RemoveWall m p.1 p.2 n) p n = false ∧
    flagToward (RemoveWall m p.1 p.2 n) n p = false := by
  obtain ⟨p1, p2⟩ := p
  obtain ⟨n1, n2⟩ := n
  have hne : (p1, p2) ≠ (n1, n2) := adjacent_ne h
  simp only [adjacent] at h
  rcases h with ⟨hc1, hc2⟩ | ⟨hc1, hc2⟩ | ⟨hc1, hc2⟩ | ⟨hc1, hc2⟩
  · obtain ⟨d1, d2⟩ := dirTo_above (p := (p1, p2)) (q := (n1, n2)) ⟨hc1, hc2⟩
    rw [flagToward_def, flagToward_def, d1, d2]
    subst hc1
    rw [RemoveWall_above m p1 p2 n2 hc2]
    beta_reduce
    constructor
    · rw [if_pos ⟨rfl, rfl⟩]; simp [wallSide]
    · rw [if_neg (by simp_all), if_pos ⟨rfl, rfl⟩]; simp [wallSide]
  · obtain ⟨d1, d2⟩ := dirTo_right (p := (p1, p2)) (q := (n1, n2)) ⟨hc1, hc2⟩
    rw [flagToward_def, flagToward_def, d1, d2]
    subst hc2
    rw [RemoveWall_right m p1 p2 n1 hc1]
    beta_reduce
    constructor
    · rw [if_pos ⟨rfl, rfl⟩]; simp [wallSide]
    · rw [if_neg (by simp_all), if_pos ⟨rfl, rfl⟩]; simp [wallSide]
  · obtain ⟨d1, d2⟩ := dirTo_below (p := (p1, p2)) (q := (n1, n2)) ⟨hc1, hc2⟩
    rw [flagToward_def, flagToward_def, d1, d2]
    subst hc1
    rw [RemoveWall_below m p1 p2 n2 hc2]
    beta_reduce
    constructor
    · rw [if_pos ⟨rfl, rfl⟩]; simp [wallSide]
    · rw [if_neg (by simp_all), if_pos ⟨rfl, rfl⟩]; simp [wallSide]
  · obtain ⟨d1, d2⟩ := dirTo_left (p := (p1, p2)) (q := (n1, n2)) ⟨hc1, hc2⟩
    rw [flagToward_def, flagToward_def, d1, d2]
    subst hc2
    rw [RemoveWall_left m p1 p2 n1 hc1]
    beta_reduce
    constructor
    · rw [if_pos ⟨rfl, rfl⟩]; simp [wallSide]
    · rw [if_neg (by simp_all), if_pos ⟨rfl, rfl⟩]; simp [wallSide]

/-! ## Counting cells and removed internal walls -/

/-- The finite set of all in-bounds coordinates. -/
def cellsFin (W H : ℕ) : Finset (ℕ × ℕ) := Finset.range W ×ˢ Finset.range H

theorem mem_cellsFin {W H : ℕ} {p : ℕ × ℕ} : p ∈ cellsFin W H ↔ inb W H p := by
  cases p
  simp [cellsFin, inb, Finset.mem_product]

/-- Number of in-bounds cells not yet visited. -/
def unvisCount (W H : ℕ) (m : MazeGrid) : ℕ :=
  ((cellsFin W H).filter (fun p => (m p.1 p.2).visited = false)).card

/-- Number of removed internal walls.  A removed internal wall between
two horizontally adjacent cells is counted at the left cell (its open
`right` flag), and between two vertically adjacent cells at the upper
cell (its open `bottom` flag); with paired removals this counts each
knocked-down internal wall exactly once. -/
def edgeCount (W H : ℕ) (m : MazeGrid) : ℕ :=
  ((cellsFin W H).filter (fun p => p.1 + 1 < W ∧ (m p.1 p.2).right = false)).card +
  ((cellsFin W H).filter (fun p => p.2 + 1 < H ∧ (m p.1 p.2).bottom = false)).card

theorem filter_card_succ_of_flip {s : Finset (ℕ × ℕ)} (p q : ℕ × ℕ → Prop)
    [DecidablePred p] [DecidablePred q] {a : ℕ × ℕ} (ha : a ∈ s) (h1 : ¬p a) (h2 : q a)
    (h3 : ∀ b ∈ s, b ≠ a → (p b ↔ q b)) :
    (s.filter q).card = (s.filter p).card + 1 := by
  have he : s.filter q = insert a (s.filter p) := by
    ext b
    constructor
    · intro hb
      rcases Finset.mem_filter.mp hb with ⟨hbs, hqb⟩
      by_cases hba : b = a
      · exact Finset.mem_insert.mpr (Or.inl hba)
      · exact Finset.mem_insert.mpr
          (Or.inr (Finset.mem_filter.mpr ⟨hbs, (h3 b hbs hba).mpr hqb⟩))
    · intro hb
      rcases Finset.mem_insert.mp hb with hba | hbf
      · subst hba
        exact Finset.mem_filter.mpr ⟨ha, h2⟩
      · rcases Finset.mem_filter.mp hbf with ⟨hbs, hpb⟩
        by_cases hba : b = a
        · subst hba
          exact absurd hpb h1
        · exact Finset.mem_filter.mpr ⟨hbs, (h3 b hbs hba).mp hpb⟩
  rw [he, Finset.card_insert_of_not_mem]
  intro hmem
  exact h1 (Finset.mem_filter.mp hmem).2

theorem markVisited_right (m : MazeGrid) (x y a b : ℕ) :
    (markVisited m x y a b).right = (m a b).right := by
  by_cases h : a = x ∧ b = y
  · obtain ⟨rfl, rfl⟩ := h
    rw [markVisited_self]
  · rw [markVisited_other _ _ _ h]

theorem markVisited_bottom (m : MazeGrid) (x y a b : ℕ) :
    (markVisited m x y a b).bottom = (m a b).bottom := by
  by_cases h : a = x ∧ b = y
  · obtain ⟨rfl, rfl⟩ := h
    rw [markVisited_self]
  · rw [markVisited_other _ _ _ h]

theorem markVisited_visited_iff (m : MazeGrid) (x y a b : ℕ) :
    (markVisited m x y a b).visited = true ↔
      ((m a b).visited = true ∨ (a = x ∧ b = y)) := by
  by_cases h : a = x ∧ b = y
  · obtain ⟨rfl, rfl⟩ := h
    rw [markVisited_self]
    simp
  · rw [markVisited_other _ _ _ h]
    simp [h]

theorem unvisCount_markVisited (W H : ℕ) (m : MazeGrid) {p : ℕ × ℕ} (hp : inb W H p)
    (hv : (m p.1 p.2).visited = false) :
    unvisCount W H m = unvisCount W H (markVisited m p.1 p.2) + 1 := by
  apply filter_card_succ_of_flip _ _ (mem_cellsFin.mpr hp)
  · rw [markVisited_self]
    simp
  · exact hv
  · intro b _ hba
    have : ¬(b.1 = p.1 ∧ b.2 = p.2) := by
      intro hc
      exact hba (Prod.ext hc.1 hc.2)
    rw [markVisited_other _ _ _ this]

theorem edgeCount_markVisited (W H : ℕ) (m : MazeGrid) (x y : ℕ) :
    edgeCount W H (markVisited m x y) = edgeCount W H m := by
  unfold edgeCount
  congr 1
  · apply congrArg Finset.card
    apply Finset.filter_congr
    intro b _
    rw [markVisited_right]
  · apply congrArg Finset.card
    apply Finset.filter_congr
    intro b _
    rw [markVisited_bottom]

/-! ## Evolution of the grid during carving -/

/-- The carving only marks cells visited and knocks walls down: visited
flags only go from `false` to `true`, wall flags only from `true` (up) to
`false` (removed). -/
def Evol (m m' : MazeGrid) : Prop :=
  ∀ a b, ((m a b).visited = true → (m' a b).visited = true) ∧
    ((m' a b).top = true → (m a b).top = true) ∧
    ((m' a b).right = true → (m a b).right = true) ∧
    ((m' a b).bottom = true → (m a b).bottom = true) ∧
    ((m' a b).left = true → (m a b).left = true)

theorem Evol_refl (m : MazeGrid) : Evol m m :=
  fun _ _ => ⟨id, id, id, id, id⟩

theorem Evol_trans {m1 m2 m3 : MazeGrid} (h1 : Evol m1 m2) (h2 : Evol m2 m3) :
    Evol m1 m3 := by
  intro a b
  obtain ⟨v1, t1, r1, b1, l1⟩ := h1 a b
  obtain ⟨v2, t2, r2, b2, l2⟩ := h2 a b
  exact ⟨fun h => v2 (v1 h), fun h => t1 (t2 h), fun h => r1 (r2 h),
    fun h => b1 (b2 h), fun h => l1 (l2 h)⟩

theorem Evol_markVisited (m : MazeGrid) (x y : ℕ) : Evol m (markVisited m x y) := by
  intro a b
  by_cases h : a = x ∧ b = y
  · obtain ⟨rfl, rfl⟩ := h
    rw [markVisited_self]
    exact ⟨fun _ => rfl, id, id, id, id⟩
  · rw [markVisited_other _ _ _ h]
    exact ⟨id, id, id, id, id⟩

theorem Evol_RemoveWall (m : MazeGrid) {p n : ℕ × ℕ} (h : adjacent p n) :
    Evol m (RemoveWall m p.1 p.2 n) := by
  obtain ⟨p1, p2⟩ := p
  obtain ⟨n1, n2⟩ := n
  simp only [adjacent] at h
  rcases h with ⟨hc1, hc2⟩ | ⟨hc1, hc2⟩ | ⟨hc1, hc2⟩ | ⟨hc1, hc2⟩
  · subst hc1
    rw [RemoveWall_above m p1 p2 n2 hc2]
    intro a b
    beta_reduce
    refine ⟨?_, ?_, ?_, ?_, ?_⟩ <;> split_ifs <;> simp_all
  · subst hc2
    rw [RemoveWall_right m p1 p2 n1 hc1]
    intro a b
    beta_reduce
    refine ⟨?_, ?_, ?_, ?_, ?_⟩ <;> split_ifs <;> simp_all
  · subst hc1
    rw [RemoveWall_below m p1 p2 n2 hc2]
    intro a b
    beta_reduce
    refine ⟨?_, ?_, ?_, ?_, ?_⟩ <;> split_ifs <;> simp_all
  · subst hc2
    rw [RemoveWall_left m p1 p2 n1 hc1]
    intro a b
    beta_reduce
    refine ⟨?_, ?_, ?_, ?_, ?_⟩ <;> split_ifs <;> simp_all

theorem Evol_visited {m m' : MazeGrid} (h : Evol m m') {a b : ℕ}
    (hv : (m a b).visited = true) : (m' a b).visited = true :=
  (h a b).1 hv

theorem Evol_unvisited {m m' : MazeGrid} (h : Evol m m') {a b : ℕ}
    (hv : (m' a b).visited = false) : (m a b).visited = false := by
  rcases hb : (m a b).visited with _ | _
  · rfl
  · rw [(h a b).1 hb] at hv
    exact hv

theorem Evol_wallSide {m m' : MazeGrid} (h : Evol m m') (a b s : ℕ)
    (hw : wallSide (m' a b) s = true) : wallSide (m a b) s = true := by
  obtain ⟨_, ht, hr, hbm, hl⟩ := h a b
  unfold wallSide at *
  split_ifs at hw ⊢ <;> first | exact ht hw | exact hr hw | exact hbm hw | exact hl hw | rfl

theorem Evol_wallSide_open {m m' : MazeGrid} (h : Evol m m') (a b s : ℕ)
    (hw : wallSide (m a b) s = false) : wallSide (m' a b) s = false := by
  rcases hb : wallSide (m' a b) s with _ | _
  · rfl
  · rw [Evol_wallSide h a b s hb] at hw
    exact hw

theorem Evol_flagToward {m m' : MazeGrid} (h : Evol m m') {p q : ℕ × ℕ}
    (hf : flagToward m p q = false) : flagToward m' p q = false := by
  rw [flagToward_def] at *
  exact Evol_wallSide_open h _ _ _ hf

theorem Evol_unvisCount_le {W H : ℕ} {m m' : MazeGrid} (h : Evol m m') :
    unvisCount W H m' ≤ unvisCount W H m := by
  apply Finset.card_le_card
  intro b hb
  rcases Finset.mem_filter.mp hb with ⟨hbs, hvb⟩
  exact Finset.mem_filter.mpr ⟨hbs, Evol_unvisited h hvb⟩

theorem Evol_unvisCount_lt {W H : ℕ} {m m' : MazeGrid} (h : Evol m m') {q : ℕ × ℕ}
    (hq : inb W H q) (h1 : (m q.1 q.2).visited = false)
    (h2 : (m' q.1 q.2).visited = true) :
    unvisCount W H m' < unvisCount W H m := by
  apply Finset.card_lt_card
  constructor
  · intro b hb
    rcases Finset.mem_filter.mp hb with ⟨hbs, hvb⟩
    exact Finset.mem_filter.mpr ⟨hbs, Evol_unvisited h hvb⟩
  · intro hsub
    have := hsub (Finset.mem_filter.mpr ⟨mem_cellsFin.mpr hq, h1⟩)
    rw [Finset.mem_filter] at this
    rw [this.2] at h2
    exact Bool.false_ne_true h2

/-! ## Open-wall reachability -/

/-- Two in-bounds adjacent cells joined by a removed (open on both
matched flags) wall. -/
def openAdj (W H : ℕ) (m : MazeGrid) (p q : ℕ × ℕ) : Prop :=
  inb W H p ∧ inb W H q ∧ adjacent p q ∧
    flagToward m p q = false ∧ flagToward m q p = false

/-- Reachability through removed internal walls. -/
def openReach (W H : ℕ) (m : MazeGrid) : ℕ × ℕ → ℕ × ℕ → Prop :=
  Relation.ReflTransGen (openAdj W H m)

theorem openAdj_symm {W H : ℕ} {m : MazeGrid} {p q : ℕ × ℕ} (h : openAdj W H m p q) :
    openAdj W H m q p :=
  ⟨h.2.1, h.1, adjacent_symm h.2.2.1, h.2.2.2.2, h.2.2.2.1⟩

theorem openReach_symm {W H : ℕ} {m : MazeGrid} {p q : ℕ × ℕ}
    (h : openReach W H m p q) : openReach W H m q p := by
  induction h with
  | refl => exact Relation.ReflTransGen.refl
  | tail _ hstep ih =>
    exact Relation.ReflTransGen.trans
      (Relation.ReflTransGen.single (openAdj_symm hstep)) ih

theorem Evol_openReach {W H : ℕ} {m m' : MazeGrid} (he : Evol m m') {p q : ℕ × ℕ}
    (h : openReach W H m p q) : openReach W H m' p q := by
  induction h with
  | refl => exact Relation.ReflTransGen.refl
  | tail _ hstep ih =>
    exact Relation.ReflTransGen.tail ih
      ⟨hstep.1, hstep.2.1, hstep.2.2.1, Evol_flagToward he hstep.2.2.2.1,
        Evol_flagToward he hstep.2.2.2.2⟩

/-! ## Neighbor-list facts -/

theorem mem_GetNeighbors {W H w h : ℕ} {n : ℕ × ℕ} (hin : inb W H (w, h))
    (hn : n ∈ GetNeighbors W H w h) : inb W H n ∧ adjacent (w, h) n := by
  have hW : w < W := hin.1
  have hH : h < H := hin.2
  unfold GetNeighbors at hn
  simp only [List.mem_append] at hn
  rcases hn with ((hn | hn) | hn) | hn
  · split_ifs at hn with hc
    · rw [List.mem_singleton] at hn
      subst hn
      exact ⟨⟨hW, by omega⟩, Or.inl ⟨rfl, by omega⟩⟩
    · exact absurd hn (List.not_mem_nil n)
  · split_ifs at hn with hc
    · rw [List.mem_singleton] at hn
      subst hn
      exact ⟨⟨by omega, hH⟩, Or.inr (Or.inl ⟨rfl, rfl⟩)⟩
    · exact absurd hn (List.not_mem_nil n)
  · split_ifs at hn with hc
    · rw [List.mem_singleton] at hn
      subst hn
      exact ⟨⟨hW, by omega⟩, Or.inr (Or.inr (Or.inl ⟨rfl, rfl⟩))⟩
    · exact absurd hn (List.not_mem_nil n)
  · split_ifs at hn with hc
    · rw [List.mem_singleton] at hn
      subst hn
      exact ⟨⟨by omega, hH⟩, Or.inr (Or.inr (Or.inr ⟨by omega, rfl⟩))⟩
    · exact absurd hn (List.not_mem_nil n)

theorem adjacent_mem_GetNeighbors {W H : ℕ} {p q : ℕ × ℕ} (hp : inb W H p)
    (hq : inb W H q) (h : adjacent p q) : q ∈ GetNeighbors W H p.1 p.2 := by
  obtain ⟨p1, p2⟩ := p
  obtain ⟨q1, q2⟩ := q
  have hp1 : p1 < W := hp.1
  have hp2 : p2 < H := hp.2
  have hq1 : q1 < W := hq.1
  have hq2 : q2 < H := hq.2
  simp only [adjacent] at h
  unfold GetNeighbors
  simp only [List.mem_append]
  rcases h with ⟨hc1, hc2⟩ | ⟨hc1, hc2⟩ | ⟨hc1, hc2⟩ | ⟨hc1, hc2⟩
  · refine Or.inl (Or.inl (Or.inl ?_))
    rw [if_pos (show (p2 : ℕ) ≠ 0 by omega), List.mem_singleton]
    exact Prod.ext (by omega) (by omega)
  · refine Or.inl (Or.inl (Or.inr ?_))
    rw [if_pos (show (p1 : ℕ) < W - 1 by omega), List.mem_singleton]
    exact Prod.ext (by omega) (by omega)
  · refine Or.inl (Or.inr ?_)
    rw [if_pos (show (p2 : ℕ) < H - 1 by omega), List.mem_singleton]
    exact Prod.ext (by omega) (by omega)
  · refine Or.inr ?_
    rw [if_pos (show (p1 : ℕ) ≠ 0 by omega), List.mem_singleton]
    exact Prod.ext (by omega) (by omega)

/-! ## The shuffle permutes its input -/

theorem swapCons_perm : ∀ (xs : List α) (k : ℕ) (x : α) (hk : k < xs.length),
    List.Perm (xs.get ⟨k, hk⟩ :: xs.set k x) (x :: xs) := by
  intro xs
  induction xs with
  | nil => intro k x hk; simp at hk
  | cons y ys ih =>
    intro k x hk
    cases k with
    | zero => exact List.Perm.swap x y ys
    | succ k =>
      have hk2 : k < ys.length := by simpa using hk
      have s1 : List.Perm (ys.get ⟨k, hk2⟩ :: y :: ys.set k x)
          (y :: ys.get ⟨k, hk2⟩ :: ys.set k x) := List.Perm.swap _ _ _
      have s2 : List.Perm (y :: ys.get ⟨k, hk2⟩ :: ys.set k x) (y :: x :: ys) :=
        List.Perm.cons y (ih k x hk2)
      have s3 : List.Perm (y :: x :: ys) (x :: y :: ys) := List.Perm.swap _ _ _
      exact (s1.trans s2).trans s3

theorem set_set_perm : ∀ (l : List α) (i j : ℕ) (hi : i < l.length) (hj : j < l.length),
    List.Perm ((l.set i (l.get ⟨j, hj⟩)).set j (l.get ⟨i, hi⟩)) l := by
  intro l
  induction l with
  | nil => intro i j hi; simp at hi
  | cons x xs ih =>
    intro i j hi hj
    cases i with
    | zero =>
      cases j with
      | zero => simp
      | succ j =>
        have hj2 : j < xs.length := by simpa using hj
        exact swapCons_perm xs j x hj2
    | succ i =>
      have hi2 : i < xs.length := by simpa using hi
      cases j with
      | zero =>
        simp only [List.get_cons_succ, List.get_cons_zero, List.set_cons_succ,
          List.set_cons_zero]
        exact swapCons_perm xs i x hi2
      | succ j =>
        have hj2 : j < xs.length := by simpa using hj
        simp only [List.get_cons_succ, List.set_cons_succ]
        exact List.Perm.cons x (ih i j hi2 hj2)

theorem swapAt_perm (l : List α) (i j : ℕ) : List.Perm (swapAt l i j) l := by
  unfold swapAt
  rcases hgi : l.get? i with _ | a
  · exact List.Perm.refl l
  · rcases hgj : l.get? j with _ | b
    · exact List.Perm.refl l
    · rcases List.get?_eq_some.mp hgi with ⟨hi, hia⟩
      rcases List.get?_eq_some.mp hgj with ⟨hj, hjb⟩
      subst hia
      subst hjb
      exact set_set_perm l i j hi hj

theorem shuffleGo_perm (ds : ℕ → ℕ) :
    ∀ (fuel i : ℕ) (l : List α), List.Perm (shuffleGo ds fuel i l) l := by
  intro fuel
  induction fuel with
  | zero => intro i l; exact List.Perm.refl l
  | succ fuel ih =>
    intro i l
    exact List.Perm.trans (ih (i + 1) (swapAt l i (ds i % l.length)))
      (swapAt_perm l i (ds i % l.length))

theorem mem_ShuffleNeighbors (ds : ℕ → ℕ) (l : List (ℕ × ℕ)) (n : ℕ × ℕ) :
    n ∈ ShuffleNeighbors ds l ↔ n ∈ l :=
  (shuffleGo_perm ds l.length 0 l).mem_iff

/-! ## Carving invariants -/

/-- One step in direction `side` from a cell. -/
def stepDir (p : ℕ × ℕ) (s : ℕ) : ℕ × ℕ :=
  if s = 0 then (p.1, p.2 - 1) else if s = 1 then (p.1 + 1, p.2)
  else if s = 2 then (p.1, p.2 + 1) else (p.1 - 1, p.2)

theorem adjacent_stepDir {p q : ℕ × ℕ} (h : adjacent p q) :
    q = stepDir p (dirTo p q) := by
  obtain ⟨p1, p2⟩ := p
  obtain ⟨q1, q2⟩ := q
  simp only [adjacent] at h
  rcases h with ⟨hc1, hc2⟩ | ⟨hc1, hc2⟩ | ⟨hc1, hc2⟩ | ⟨hc1, hc2⟩
  · obtain ⟨d1, _⟩ := dirTo_above (p := (p1, p2)) (q := (q1, q2)) ⟨hc1, hc2⟩
    rw [d1]
    exact Prod.ext (show q1 = p1 by omega) (show q2 = p2 - 1 by omega)
  · obtain ⟨d1, _⟩ := dirTo_right (p := (p1, p2)) (q := (q1, q2)) ⟨hc1, hc2⟩
    rw [d1]
    exact Prod.ext (show q1 = p1 + 1 by omega) (show q2 = p2 by omega)
  · obtain ⟨d1, _⟩ := dirTo_below (p := (p1, p2)) (q := (q1, q2)) ⟨hc1, hc2⟩
    rw [d1]
    exact Prod.ext (show q1 = p1 by omega) (show q2 = p2 + 1 by omega)
  · obtain ⟨d1, _⟩ := dirTo_left (p := (p1, p2)) (q := (q1, q2)) ⟨hc1, hc2⟩
    rw [d1]
    exact Prod.ext (show q1 = p1 - 1 by omega) (show q2 = p2 by omega)

theorem dirTo_inj {p b n : ℕ × ℕ} (h1 : adjacent p b) (h2 : adjacent p n)
    (he : dirTo p b = dirTo p n) : b = n := by
  have e1 := adjacent_stepDir h1
  rw [he] at e1
  exact e1.trans (adjacent_stepDir h2).symm

theorem dirTo_not_outFacing {W H : ℕ} {p n : ℕ × ℕ} (hadj : adjacent p n)
    (hn : inb W H n) : ¬outFacing W H p (dirTo p n) := by
  obtain ⟨p1, p2⟩ := p
  obtain ⟨n1, n2⟩ := n
  have hn1 : n1 < W := hn.1
  have hn2 : n2 < H := hn.2
  simp only [adjacent] at hadj
  rcases hadj with ⟨hc1, hc2⟩ | ⟨hc1, hc2⟩ | ⟨hc1, hc2⟩ | ⟨hc1, hc2⟩
  · rw [(dirTo_above (p := (p1, p2)) (q := (n1, n2)) ⟨hc1, hc2⟩).1]
    unfold outFacing
    simp only []
    omega
  · rw [(dirTo_right (p := (p1, p2)) (q := (n1, n2)) ⟨hc1, hc2⟩).1]
    unfold outFacing
    simp only []
    omega
  · rw [(dirTo_below (p := (p1, p2)) (q := (n1, n2)) ⟨hc1, hc2⟩).1]
    unfold outFacing
    simp only []
    omega
  · rw [(dirTo_left (p := (p1, p2)) (q := (n1, n2)) ⟨hc1, hc2⟩).1]
    unfold outFacing
    simp only []
    omega

/-- Matched wall flags agree between adjacent in-bounds cells (claim C5's
pairing property for one grid). -/
def Paired (W H : ℕ) (m : MazeGrid) : Prop :=
  ∀ p q, inb W H p → inb W H q → adjacent p q → flagToward m p q = flagToward m q p

/-- Every removed internal wall joins two visited cells. -/
def Closed (W H : ℕ) (m : MazeGrid) : Prop :=
  ∀ p q, inb W H p → inb W H q → adjacent p q →
    (flagToward m p q = false ∨ flagToward m q p = false) →
    (m p.1 p.2).visited = true ∧ (m q.1 q.2).visited = true

/-- `Closed` up to one exception: a removed wall may lead to the cell `r`
(the cell the carver is about to enter), whose other endpoint is
visited. -/
def ClosedExcept (W H : ℕ) (m : MazeGrid) (r : ℕ × ℕ) : Prop :=
  ∀ p q, inb W H p → inb W H q → adjacent p q →
    (flagToward m p q = false ∨ flagToward m q p = false) →
    ((m p.1 p.2).visited = true ∧ (m q.1 q.2).visited = true) ∨
    (q = r ∧ (m p.1 p.2).visited = true) ∨
    (p = r ∧ (m q.1 q.2).visited = true)

/-- All outward-facing boundary walls are up. -/
def BoundaryClosed (W H : ℕ) (m : MazeGrid) : Prop :=
  ∀ p side, inb W H p → outFacing W H p side → wallSide (m p.1 p.2) side = true

theorem markVisited_flagToward (m : MazeGrid) (x y : ℕ) (p q : ℕ × ℕ) :
    flagToward (markVisited m x y) p q = flagToward m p q := by
  rw [flagToward_def, flagToward_def, markVisited_walls]

theorem Paired_markVisited {W H : ℕ} {m : MazeGrid} (h : Paired W H m) (x y : ℕ) :
    Paired W H (markVisited m x y) := by
  intro p q hp hq hadj
  rw [markVisited_flagToward, markVisited_flagToward]
  exact h p q hp hq hadj

theorem BoundaryClosed_markVisited {W H : ℕ} {m : MazeGrid} (h : BoundaryClosed W H m)
    (x y : ℕ) : BoundaryClosed W H (markVisited m x y) := by
  intro p side hp hface
  rw [markVisited_walls]
  exact h p side hp hface

theorem Closed_markVisited_of_ClosedExcept {W H : ℕ} {m : MazeGrid} {r : ℕ × ℕ}
    (h : ClosedExcept W H m r) : Closed W H (markVisited m r.1 r.2) := by
  intro p q hp hq hadj hopen
  rw [markVisited_flagToward, markVisited_flagToward] at hopen
  rw [markVisited_visited_iff, markVisited_visited_iff]
  rcases h p q hp hq hadj hopen with ⟨h1, h2⟩ | ⟨rfl, h1⟩ | ⟨rfl, h1⟩
  · exact ⟨Or.inl h1, Or.inl h2⟩
  · exact ⟨Or.inl h1, Or.inr ⟨rfl, rfl⟩⟩
  · exact ⟨Or.inr ⟨rfl, rfl⟩, Or.inl h1⟩

/-- Knocking down a wall changes no other directed flag. -/
theorem RemoveWall_flagToward_other (m : MazeGrid) {p n : ℕ × ℕ} (hadj : adjacent p n)
    {a b : ℕ × ℕ} (hadj2 : adjacent a b) (h1 : ¬(a = p ∧ b = n)) (h2 : ¬(a = n ∧ b = p)) :
    flagToward (RemoveWall m p.1 p.2 n) a b = flagToward m a b := by
  rw [flagToward_def, flagToward_def]
  apply RemoveWall_wallSide_other m hadj
  · intro hc
    have hap : a = p := by
      have := hc.1
      rw [← this]
    subst hap
    exact h1 ⟨rfl, dirTo_inj hadj2 hadj hc.2⟩
  · intro hc
    have hap : a = n := by
      have := hc.1
      rw [← this]
    subst hap
    exact h2 ⟨rfl, dirTo_inj hadj2 (adjacent_symm hadj) hc.2⟩

theorem Paired_RemoveWall {W H : ℕ} {m : MazeGrid} {p n : ℕ × ℕ} (hadj : adjacent p n)
    (hpar : Paired W H m) : Paired W H (RemoveWall m p.1 p.2 n) := by
  intro a b ha hb hadj2
  by_cases hc1 : a = p ∧ b = n
  · obtain ⟨rfl, rfl⟩ := hc1
    rw [(RemoveWall_flag m hadj).1, (RemoveWall_flag m hadj).2]
  · by_cases hc2 : a = n ∧ b = p
    · obtain ⟨rfl, rfl⟩ := hc2
      rw [(RemoveWall_flag m hadj).1, (RemoveWall_flag m hadj).2]
    · rw [RemoveWall_flagToward_other m hadj hadj2 hc1 hc2,
        RemoveWall_flagToward_other m hadj (adjacent_symm hadj2)
          (fun hx => hc2 ⟨hx.2, hx.1⟩) (fun hx => hc1 ⟨hx.2, hx.1⟩)]
      exact hpar a b ha hb hadj2

theorem ClosedExcept_RemoveWall {W H : ℕ} {m : MazeGrid} {p n : ℕ × ℕ}
    (hadj : adjacent p n) (hclosed : Closed W H m)
    (hvisp : (m p.1 p.2).visited = true) :
    ClosedExcept W H (RemoveWall m p.1 p.2 n) n := by
  intro a b ha hb hadj2 hopen
  rw [RemoveWall_visited m hadj, RemoveWall_visited m hadj]
  by_cases hc1 : a = p ∧ b = n
  · obtain ⟨rfl, rfl⟩ := hc1
    exact Or.inr (Or.inl ⟨rfl, hvisp⟩)
  · by_cases hc2 : a = n ∧ b = p
    · obtain ⟨rfl, rfl⟩ := hc2
      exact Or.inr (Or.inr ⟨rfl, hvisp⟩)
    · rw [RemoveWall_flagToward_other m hadj hadj2 hc1 hc2,
        RemoveWall_flagToward_other m hadj (adjacent_symm hadj2)
          (fun hx => hc2 ⟨hx.2, hx.1⟩) (fun hx => hc1 ⟨hx.2, hx.1⟩)] at hopen
      exact Or.inl (hclosed a b ha hb hadj2 hopen)

theorem BoundaryClosed_RemoveWall {W H : ℕ} {m : MazeGrid} {p n : ℕ × ℕ}
    (hadj : adjacent p n) (hp : inb W H p) (hn : inb W H n)
    (h : BoundaryClosed W H m) : BoundaryClosed W H (RemoveWall m p.1 p.2 n) := by
  intro a side ha hface
  rw [RemoveWall_wallSide_other m hadj]
  · exact h a side ha hface
  · intro hc
    have hap : a = p := by
      have := hc.1
      rw [← this]
    rw [hap, hc.2] at hface
    exact dirTo_not_outFacing hadj hn hface
  · intro hc
    have hap : a = n := by
      have := hc.1
      rw [← this]
    rw [hap, hc.2] at hface
    exact dirTo_not_outFacing (adjacent_symm hadj) hp hface

/-- Knocking down a still-present internal wall increases the count of
removed internal walls by exactly one. -/
theorem edgeCount_RemoveWall {W H : ℕ} {m : MazeGrid} {p n : ℕ × ℕ}
    (hadj : adjacent p n) (hp : inb W H p) (hn : inb W H n)
    (hflag1 : flagToward m p n = true) (hflag2 : flagToward m n p = true) :
    edgeCount W H (RemoveWall m p.1 p.2 n) = edgeCount W H m + 1 := by
  obtain ⟨p1, p2⟩ := p
  obtain ⟨n1, n2⟩ := n
  have hp1 : p1 < W := hp.1
  have hp2 : p2 < H := hp.2
  have hn1 : n1 < W := hn.1
  have hn2 : n2 < H := hn.2
  simp only [adjacent] at hadj
  rcases hadj with ⟨hc1, hc2⟩ | ⟨hc1, hc2⟩ | ⟨hc1, hc2⟩ | ⟨hc1, hc2⟩
  · -- neighbor above p: the knocked-down wall is counted at n (bottom flag)
    rw [← hc1] at hn1 hflag2 ⊢
    have hbot : (m p1 n2).bottom = true := by
      rw [flagToward_def,
        (dirTo_below (p := (p1, n2)) (q := (p1, p2)) ⟨rfl, hc2⟩).1] at hflag2
      simpa [wallSide] using hflag2
    have hB : ∀ a b, ((RemoveWall m p1 p2 (p1, n2)) a b).bottom =
        if a = p1 ∧ b = n2 then false else (m a b).bottom := by
      intro a b
      rw [RemoveWall_above m p1 p2 n2 hc2]
      beta_reduce
      split_ifs <;> simp_all
    have hR : ∀ a b, ((RemoveWall m p1 p2 (p1, n2)) a b).right = (m a b).right := by
      intro a b
      rw [RemoveWall_above m p1 p2 n2 hc2]
      beta_reduce
      split_ifs <;> simp_all
    unfold edgeCount
    have e1 : (Finset.filter (fun q => q.1 + 1 < W ∧
        ((RemoveWall m p1 p2 (p1, n2)) q.1 q.2).right = false) (cellsFin W H)).card =
        (Finset.filter (fun q => q.1 + 1 < W ∧ (m q.1 q.2).right = false)
          (cellsFin W H)).card := by
      apply congrArg Finset.card
      apply Finset.filter_congr
      intro b _
      rw [hR]
    have e2 : (Finset.filter (fun q => q.2 + 1 < H ∧
        ((RemoveWall m p1 p2 (p1, n2)) q.1 q.2).bottom = false) (cellsFin W H)).card =
        (Finset.filter (fun q => q.2 + 1 < H ∧ (m q.1 q.2).bottom = false)
          (cellsFin W H)).card + 1 := by
      apply filter_card_succ_of_flip _ _
        (mem_cellsFin.mpr (⟨hn1, hn2⟩ : inb W H (p1, n2)))
      · intro hcon
        rw [hbot] at hcon
        simp at hcon
      · refine ⟨by omega, ?_⟩
        rw [hB]
        simp
      · intro b _ hbne
        rw [hB]
        have hni : ¬(b.1 = p1 ∧ b.2 = n2) := by
          intro hcc
          exact hbne (Prod.ext hcc.1 hcc.2)
        rw [if_neg hni]
    rw [e1, e2]
    omega
  · -- neighbor right of p: the knocked-down wall is counted at p (right flag)
    rw [← hc2] at hn2 hflag1 ⊢
    have hrt : (m p1 p2).right = true := by
      rw [flagToward_def,
        (dirTo_right (p := (p1, p2)) (q := (n1, p2)) ⟨hc1, rfl⟩).1] at hflag1
      simpa [wallSide] using hflag1
    have hR : ∀ a b, ((RemoveWall m p1 p2 (n1, p2)) a b).right =
        if a = p1 ∧ b = p2 then false else (m a b).right := by
      intro a b
      rw [RemoveWall_right m p1 p2 n1 hc1]
      beta_reduce
      split_ifs <;> simp_all
    have hB : ∀ a b, ((RemoveWall m p1 p2 (n1, p2)) a b).bottom = (m a b).bottom := by
      intro a b
      rw [RemoveWall_right m p1 p2 n1 hc1]
      beta_reduce
      split_ifs <;> simp_all
    unfold edgeCount
    have e1 : (Finset.filter (fun q => q.1 + 1 < W ∧
        ((RemoveWall m p1 p2 (n1, p2)) q.1 q.2).right = false) (cellsFin W H)).card =
        (Finset.filter (fun q => q.1 + 1 < W ∧ (m q.1 q.2).right = false)
          (cellsFin W H)).card + 1 := by
      apply filter_card_succ_of_flip _ _
        (mem_cellsFin.mpr (⟨hp1, hp2⟩ : inb W H (p1, p2)))
      · intro hcon
        rw [hrt] at hcon
        simp at hcon
      · refine ⟨by omega, ?_⟩
        rw [hR]
        simp
      · intro b _ hbne
        rw [hR]
        have hni : ¬(b.1 = p1 ∧ b.2 = p2) := by
          intro hcc
          exact hbne (Prod.ext hcc.1 hcc.2)
        rw [if_neg hni]
    have e2 : (Finset.filter (fun q => q.2 + 1 < H ∧
        ((RemoveWall m p1 p2 (n1, p2)) q.1 q.2).bottom = false) (cellsFin W H)).card =
        (Finset.filter (fun q => q.2 + 1 < H ∧ (m q.1 q.2).bottom = false)
          (cellsFin W H)).card := by
      apply congrArg Finset.card
      apply Finset.filter_congr
      intro b _
      rw [hB]
    rw [e1, e2]
    omega
  · -- neighbor below p: the knocked-down wall is counted at p (bottom flag)
    rw [← hc1] at hn1 hflag1 ⊢
    have hbot : (m p1 p2).bottom = true := by
      rw [flagToward_def,
        (dirTo_below (p := (p1, p2)) (q := (p1, n2)) ⟨rfl, hc2⟩).1] at hflag1
      simpa [wallSide] using hflag1
    have hB : ∀ a b, ((RemoveWall m p1 p2 (p1, n2)) a b).bottom =
        if a = p1 ∧ b = p2 then false else (m a b).bottom := by
      intro a b
      rw [RemoveWall_below m p1 p2 n2 hc2]
      beta_reduce
      split_ifs <;> simp_all
    have hR : ∀ a b, ((RemoveWall m p1 p2 (p1, n2)) a b).right = (m a b).right := by
      intro a b
      rw [RemoveWall_below m p1 p2 n2 hc2]
      beta_reduce
      split_ifs <;> simp_all
    unfold edgeCount
    have e1 : (Finset.filter (fun q => q.1 + 1 < W ∧
        ((RemoveWall m p1 p2 (p1, n2)) q.1 q.2).right = false) (cellsFin W H)).card =
        (Finset.filter (fun q => q.1 + 1 < W ∧ (m q.1 q.2).right = false)
          (cellsFin W H)).card := by
      apply congrArg Finset.card
      apply Finset.filter_congr
      intro b _
      rw [hR]
    have e2 : (Finset.filter (fun q => q.2 + 1 < H ∧
        ((RemoveWall m p1 p2 (p1, n2)) q.1 q.2).bottom = false) (cellsFin W H)).card =
        (Finset.filter (fun q => q.2 + 1 < H ∧ (m q.1 q.2).bottom = false)
          (cellsFin W H)).card + 1 := by
      apply filter_card_succ_of_flip _ _
        (mem_cellsFin.mpr (⟨hp1, hp2⟩ : inb W H (p1, p2)))
      · intro hcon
        rw [hbot] at hcon
        simp at hcon
      · refine ⟨by omega, ?_⟩
        rw [hB]
        simp
      · intro b _ hbne
        rw [hB]
        have hni : ¬(b.1 = p1 ∧ b.2 = p2) := by
          intro hcc
          exact hbne (Prod.ext hcc.1 hcc.2)
        rw [if_neg hni]
    rw [e1, e2]
    omega
  · -- neighbor left of p: the knocked-down wall is counted at n (right flag)
    rw [← hc2] at hn2 hflag2 ⊢
    have hrt : (m n1 p2).right = true := by
      rw [flagToward_def,
        (dirTo_right (p := (n1, p2)) (q := (p1, p2)) ⟨hc1, rfl⟩).1] at hflag2
      simpa [wallSide] using hflag2
    have hR : ∀ a b, ((RemoveWall m p1 p2 (n1, p2)) a b).right =
        if a = n1 ∧ b = p2 then false else (m a b).right := by
      intro a b
      rw [RemoveWall_left m p1 p2 n1 hc1]
      beta_reduce
      split_ifs <;> simp_all
    have hB : ∀ a b, ((RemoveWall m p1 p2 (n1, p2)) a b).bottom = (m a b).bottom := by
      intro a b
      rw [RemoveWall_left m p1 p2 n1 hc1]
      beta_reduce
      split_ifs <;> simp_all
    unfold edgeCount
    have e1 : (Finset.filter (fun q => q.1 + 1 < W ∧
        ((RemoveWall m p1 p2 (n1, p2)) q.1 q.2).right = false) (cellsFin W H)).card =
        (Finset.filter (fun q => q.1 + 1 < W ∧ (m q.1 q.2).right = false)
          (cellsFin W H)).card + 1 := by
      apply filter_card_succ_of_flip _ _
        (mem_cellsFin.mpr (⟨hn1, hn2⟩ : inb W H (n1, p2)))
      · intro hcon
        rw [hrt] at hcon
        simp at hcon
      · refine ⟨by omega, ?_⟩
        rw [hR]
        simp
      · intro b _ hbne
        rw [hR]
        have hni : ¬(b.1 = n1 ∧ b.2 = p2) := by
          intro hcc
          exact hbne (Prod.ext hcc.1 hcc.2)
        rw [if_neg hni]
    have e2 : (Finset.filter (fun q => q.2 + 1 < H ∧
        ((RemoveWall m p1 p2 (n1, p2)) q.1 q.2).bottom = false) (cellsFin W H)).card =
        (Finset.filter (fun q => q.2 + 1 < H ∧ (m q.1 q.2).bottom = false)
          (cellsFin W H)).card := by
      apply congrArg Finset.card
      apply Finset.filter_congr
      intro b _
      rw [hB]
    rw [e1, e2]
    omega

/-! ## Unfolding equations and small count facts -/

theorem GenerateMaze_succ (ρ : ℕ → ℕ) (W H f : ℕ) (p : ℕ × ℕ) (st : GenSt) :
    GenerateMaze ρ W H (f + 1) p st =
      genLoop ρ W H f p
        (ShuffleNeighbors (fun i => ρ (st.k + i)) (GetNeighbors W H p.1 p.2))
        { maze := markVisited st.maze p.1 p.2,
          k := st.k + (GetNeighbors W H p.1 p.2).length } := by
  rw [GenerateMaze]

theorem genLoop_nil (ρ : ℕ → ℕ) (W H f : ℕ) (p : ℕ × ℕ) (st : GenSt) :
    genLoop ρ W H f p [] st = st := by
  rw [genLoop]

theorem genLoop_cons (ρ : ℕ → ℕ) (W H f : ℕ) (p n : ℕ × ℕ) (rest : List (ℕ × ℕ))
    (st : GenSt) :
    genLoop ρ W H f p (n :: rest) st =
      if (st.maze n.1 n.2).visited = false then
        genLoop ρ W H f p rest
          (GenerateMaze ρ W H f n { st with maze := RemoveWall st.maze p.1 p.2 n })
      else genLoop ρ W H f p rest st := by
  rw [genLoop]

theorem one_le_unvisCount {W H : ℕ} {m : MazeGrid} {q : ℕ × ℕ} (hq : inb W H q)
    (hv : (m q.1 q.2).visited = false) : 1 ≤ unvisCount W H m := by
  have hmem : q ∈ (cellsFin W H).filter (fun p => (m p.1 p.2).visited = false) :=
    Finset.mem_filter.mpr ⟨mem_cellsFin.mpr hq, hv⟩
  exact Finset.card_pos.mpr ⟨q, hmem⟩

theorem unvisCount_zero_visited {W H : ℕ} {m : MazeGrid} (h : unvisCount W H m = 0)
    {q : ℕ × ℕ} (hq : inb W H q) : (m q.1 q.2).visited = true := by
  rcases hb : (m q.1 q.2).visited with _ | _
  · have := one_le_unvisCount hq hb
    omega
  · rfl

theorem unvisCount_RemoveWall {W H : ℕ} (m : MazeGrid) {p n : ℕ × ℕ}
    (hadj : adjacent p n) :
    unvisCount W H (RemoveWall m p.1 p.2 n) = unvisCount W H m := by
  apply congrArg Finset.card
  apply Finset.filter_congr
  intro b _
  rw [RemoveWall_visited m hadj]

theorem genLoop_all_visited (ρ : ℕ → ℕ) (W H f : ℕ) (p : ℕ × ℕ) :
    ∀ (L : List (ℕ × ℕ)) (st : GenSt),
      (∀ n ∈ L, (st.maze n.1 n.2).visited = true) → genLoop ρ W H f p L st = st := by
  intro L
  induction L with
  | nil => intro st _; exact genLoop_nil ρ W H f p st
  | cons n rest ih =>
    intro st hall
    rw [genLoop_cons, if_neg (by rw [hall n (List.mem_cons_self n rest)]; simp)]
    exact ih st (fun x hx => hall x (List.mem_cons_of_mem n hx))

/-! ## The master invariant of the carver -/

/-- What one `GenerateMaze` call at an unvisited cell `p` establishes
(grid `m` before, `m'` after): the carving only evolves the grid, `p` and
all its neighbors end visited, pairing / closedness / boundary walls are
maintained, exactly one wall is removed per newly visited cell, every
newly visited cell is open-reachable from `p`, and every newly visited
cell has all of its in-bounds neighbors visited. -/
def GenPostV (W H : ℕ) (p : ℕ × ℕ) (m m' : MazeGrid) : Prop :=
  Evol m m' ∧ (m' p.1 p.2).visited = true ∧ Paired W H m' ∧ Closed W H m' ∧
  BoundaryClosed W H m' ∧
  (edgeCount W H m' + 1 + unvisCount W H m' = edgeCount W H m + unvisCount W H m) ∧
  (∀ q, inb W H q → (m' q.1 q.2).visited = true →
    (m q.1 q.2).visited = true ∨ openReach W H m' p q) ∧
  (∀ q, inb W H q →
    (((m' q.1 q.2).visited = true ∧ (m q.1 q.2).visited = false) ∨ q = p) →
    ∀ r ∈ GetNeighbors W H q.1 q.2, (m' r.1 r.2).visited = true)

/-- What the neighbor loop of `GenerateMaze` establishes. -/
def GenPostL (W H : ℕ) (p : ℕ × ℕ) (L : List (ℕ × ℕ)) (m m' : MazeGrid) : Prop :=
  Evol m m' ∧ Paired W H m' ∧ Closed W H m' ∧ BoundaryClosed W H m' ∧
  (edgeCount W H m' + unvisCount W H m' = edgeCount W H m + unvisCount W H m) ∧
  (∀ q, inb W H q → (m' q.1 q.2).visited = true →
    (m q.1 q.2).visited = true ∨ openReach W H m' p q) ∧
  (∀ q, inb W H q → (m' q.1 q.2).visited = true → (m q.1 q.2).visited = false →
    ∀ r ∈ GetNeighbors W H q.1 q.2, (m' r.1 r.2).visited = true) ∧
  (∀ n ∈ L, (m' n.1 n.2).visited = true)

theorem GenerateMaze_succ2 (ρ : ℕ → ℕ) (W H f : ℕ) (p : ℕ × ℕ) (m : MazeGrid) (k : ℕ) :
    GenerateMaze ρ W H (f + 1) p ⟨m, k⟩ =
      genLoop ρ W H f p
        (ShuffleNeighbors (fun i => ρ (k + i)) (GetNeighbors W H p.1 p.2))
        ⟨markVisited m p.1 p.2, k + (GetNeighbors W H p.1 p.2).length⟩ :=
  GenerateMaze_succ ρ W H f p ⟨m, k⟩

theorem genLoop_cons2 (ρ : ℕ → ℕ) (W H f : ℕ) (p n : ℕ × ℕ) (rest : List (ℕ × ℕ))
    (m : MazeGrid) (k : ℕ) :
    genLoop ρ W H f p (n :: rest) ⟨m, k⟩ =
      if (m n.1 n.2).visited = false then
        genLoop ρ W H f p rest (GenerateMaze ρ W H f n ⟨RemoveWall m p.1 p.2 n, k⟩)
      else genLoop ρ W H f p rest ⟨m, k⟩ :=
  genLoop_cons ρ W H f p n rest ⟨m, k⟩

theorem gen_main (ρ : ℕ → ℕ) (W H : ℕ) : ∀ fuel : ℕ,
    (∀ p m k, inb W H p → (m p.1 p.2).visited = false →
      unvisCount W H m ≤ fuel → Paired W H m →
      ClosedExcept W H m p → BoundaryClosed W H m →
      GenPostV W H p m (GenerateMaze ρ W H fuel p ⟨m, k⟩).maze) ∧
    (∀ p L m k, inb W H p → (m p.1 p.2).visited = true →
      unvisCount W H m ≤ fuel → Paired W H m →
      Closed W H m → BoundaryClosed W H m →
      (∀ n ∈ L, inb W H n ∧ adjacent p n) →
      GenPostL W H p L m (genLoop ρ W H fuel p L ⟨m, k⟩).maze) := by
  intro fuel
  induction fuel with
  | zero =>
    constructor
    · intro p m k hpin hpv hfuel _ _ _
      have := one_le_unvisCount hpin hpv
      omega
    · intro p L m k hpin hpv hfuel hpar hcl hbnd hL
      have hall : ∀ n ∈ L, (m n.1 n.2).visited = true :=
        fun n hn => unvisCount_zero_visited (by omega) (hL n hn).1
      rw [genLoop_all_visited ρ W H 0 p L ⟨m, k⟩ hall]
      refine ⟨Evol_refl _, hpar, hcl, hbnd, rfl, fun q _ hv => Or.inl hv, ?_, hall⟩
      intro q _ hv1 hv0
      rw [hv0] at hv1
      simp at hv1
  | succ f ih =>
    have visitSucc : ∀ p m k, inb W H p → (m p.1 p.2).visited = false →
        unvisCount W H m ≤ f + 1 → Paired W H m →
        ClosedExcept W H m p → BoundaryClosed W H m →
        GenPostV W H p m (GenerateMaze ρ W H (f + 1) p ⟨m, k⟩).maze := by
      intro p m k hpin hpv hfuel hpar hce hbnd
      rw [GenerateMaze_succ2]
      have hvis1 : (markVisited m p.1 p.2 p.1 p.2).visited = true := by
        rw [markVisited_self]
      have hunv1 : unvisCount W H m = unvisCount W H (markVisited m p.1 p.2) + 1 :=
        unvisCount_markVisited W H m hpin hpv
      have hLmem : ∀ n ∈ ShuffleNeighbors (fun i => ρ (k + i))
          (GetNeighbors W H p.1 p.2), inb W H n ∧ adjacent p n := by
        intro n hn
        rw [mem_ShuffleNeighbors] at hn
        exact mem_GetNeighbors hpin hn
      obtain ⟨hEv, hPar, hCl, hBnd, hCnt, hRch, hClo, hAll⟩ :=
        ih.2 p (ShuffleNeighbors (fun i => ρ (k + i)) (GetNeighbors W H p.1 p.2))
          (markVisited m p.1 p.2) (k + (GetNeighbors W H p.1 p.2).length)
          hpin hvis1 (by omega) (Paired_markVisited hpar p.1 p.2)
          (Closed_markVisited_of_ClosedExcept hce)
          (BoundaryClosed_markVisited hbnd p.1 p.2) hLmem
      have hedge1 : edgeCount W H (markVisited m p.1 p.2) = edgeCount W H m :=
        edgeCount_markVisited W H m p.1 p.2
      refine ⟨Evol_trans (Evol_markVisited m p.1 p.2) hEv,
        Evol_visited hEv hvis1, hPar, hCl, hBnd, by omega, ?_, ?_⟩
      · intro q hq hv
        rcases hRch q hq hv with hv1 | hr
        · rcases (markVisited_visited_iff m p.1 p.2 q.1 q.2).mp hv1 with hvq | hqp
          · exact Or.inl hvq
          · right
            rw [show q = p from Prod.ext hqp.1 hqp.2]
            exact Relation.ReflTransGen.refl
        · exact Or.inr hr
      · intro q hq hcase r hr
        rcases hcase with ⟨hv1, hv0⟩ | rfl
        · by_cases hq1 : (markVisited m p.1 p.2 q.1 q.2).visited = true
          · rcases (markVisited_visited_iff m p.1 p.2 q.1 q.2).mp hq1 with hvq | hqp
            · rw [hvq] at hv0
              simp at hv0
            · rw [show q = p from Prod.ext hqp.1 hqp.2] at hr
              exact hAll r (by rw [mem_ShuffleNeighbors]; exact hr)
          · have hq1f : (markVisited m p.1 p.2 q.1 q.2).visited = false := by
              rcases hb : (markVisited m p.1 p.2 q.1 q.2).visited with _ | _
              · rfl
              · exact absurd hb hq1
            exact hClo q hq hv1 hq1f r hr
        · exact hAll r (by rw [mem_ShuffleNeighbors]; exact hr)
    refine ⟨fun p m k => visitSucc p m k, ?_⟩
    intro p L
    induction L with
    | nil =>
      intro m k hpin hpv hfuel hpar hcl hbnd hL
      rw [genLoop_nil]
      refine ⟨Evol_refl _, hpar, hcl, hbnd, rfl, fun q _ hv => Or.inl hv, ?_,
        fun n hn => absurd hn (List.not_mem_nil n)⟩
      intro q _ hv1 hv0
      rw [hv0] at hv1
      simp at hv1
    | cons n rest ihL =>
      intro m k hpin hpv hfuel hpar hcl hbnd hL
      obtain ⟨hnin, hnadj⟩ := hL n (List.mem_cons_self n rest)
      have hLrest : ∀ x ∈ rest, inb W H x ∧ adjacent p x :=
        fun x hx => hL x (List.mem_cons_of_mem n hx)
      rw [genLoop_cons2]
      by_cases hnv : (m n.1 n.2).visited = false
      · rw [if_pos hnv]
        have hflag1 : flagToward m p n = true := by
          rcases hb : flagToward m p n with _ | _
          · have hvv := hcl p n hpin hnin hnadj (Or.inl hb)
            rw [hvv.2] at hnv
            simp at hnv
          · rfl
        have hflag2 : flagToward m n p = true := by
          rcases hb : flagToward m n p with _ | _
          · have hvv := hcl p n hpin hnin hnadj (Or.inr hb)
            rw [hvv.2] at hnv
            simp at hnv
          · rfl
        have hrv : (RemoveWall m p.1 p.2 n n.1 n.2).visited = false := by
          rw [RemoveWall_visited m hnadj]
          exact hnv
        have hrunv : unvisCount W H (RemoveWall m p.1 p.2 n) = unvisCount W H m :=
          unvisCount_RemoveWall m hnadj
        obtain ⟨hEv, hNv, hPar, hCl, hBnd, hCnt, hRch, hClo⟩ :=
          visitSucc n (RemoveWall m p.1 p.2 n) k
            hnin hrv (by omega) (Paired_RemoveWall hnadj hpar)
            (ClosedExcept_RemoveWall hnadj hcl hpv)
            (BoundaryClosed_RemoveWall hnadj hpin hnin hbnd)
        have hredge : edgeCount W H (RemoveWall m p.1 p.2 n) = edgeCount W H m + 1 :=
          edgeCount_RemoveWall hnadj hpin hnin hflag1 hflag2
        have hvisp2 : ((GenerateMaze ρ W H (f + 1) n
            ⟨RemoveWall m p.1 p.2 n, k⟩).maze p.1 p.2).visited = true := by
          apply Evol_visited hEv
          rw [RemoveWall_visited m hnadj]
          exact hpv
        obtain ⟨hEv2, hPar2, hCl2, hBnd2, hCnt2, hRch2, hClo2, hAll2⟩ :=
          ihL ((GenerateMaze ρ W H (f + 1) n ⟨RemoveWall m p.1 p.2 n, k⟩).maze)
            ((GenerateMaze ρ W H (f + 1) n ⟨RemoveWall m p.1 p.2 n, k⟩).k)
            hpin hvisp2
            (le_trans (Evol_unvisCount_le hEv) (by omega))
            hPar hCl hBnd hLrest
        rw [show (⟨(GenerateMaze ρ W H (f + 1) n ⟨RemoveWall m p.1 p.2 n, k⟩).maze,
            (GenerateMaze ρ W H (f + 1) n ⟨RemoveWall m p.1 p.2 n, k⟩).k⟩ : GenSt) =
            GenerateMaze ρ W H (f + 1) n ⟨RemoveWall m p.1 p.2 n, k⟩ from rfl]
          at hEv2 hPar2 hCl2 hBnd2 hCnt2 hRch2 hClo2 hAll2
        have hopenpn : openAdj W H ((GenerateMaze ρ W H (f + 1) n
            ⟨RemoveWall m p.1 p.2 n, k⟩).maze) p n := by
          refine ⟨hpin, hnin, hnadj, ?_, ?_⟩
          · exact Evol_flagToward hEv (RemoveWall_flag m hnadj).1
          · exact Evol_flagToward hEv (RemoveWall_flag m hnadj).2
        refine ⟨?_, hPar2, hCl2, hBnd2, by omega, ?_, ?_, ?_⟩
        · exact Evol_trans (Evol_RemoveWall m hnadj) (Evol_trans hEv hEv2)
        · intro q hq hv
          rcases hRch2 q hq hv with hv2 | hr2
          · rcases hRch q hq hv2 with hvr | hrn
            · rw [RemoveWall_visited m hnadj] at hvr
              exact Or.inl hvr
            · right
              exact Evol_openReach hEv2 (Relation.ReflTransGen.head hopenpn hrn)
          · exact Or.inr hr2
        · intro q hq hv1 hv0 r hr
          by_cases hq2 : ((GenerateMaze ρ W H (f + 1) n
              ⟨RemoveWall m p.1 p.2 n, k⟩).maze q.1 q.2).visited = true
          · have hv0r : (RemoveWall m p.1 p.2 n q.1 q.2).visited = false := by
              rw [RemoveWall_visited m hnadj]
              exact hv0
            exact Evol_visited hEv2 (hClo q hq (Or.inl ⟨hq2, hv0r⟩) r hr)
          · have hq2f : ((GenerateMaze ρ W H (f + 1) n
                ⟨RemoveWall m p.1 p.2 n, k⟩).maze q.1 q.2).visited = false := by
              rcases hb : ((GenerateMaze ρ W H (f + 1) n
                  ⟨RemoveWall m p.1 p.2 n, k⟩).maze q.1 q.2).visited with _ | _
              · rfl
              · exact absurd hb hq2
            exact hClo2 q hq hv1 hq2f r hr
        · intro x hx
          rcases List.mem_cons.mp hx with rfl | hx2
          · exact Evol_visited hEv2 hNv
          · exact hAll2 x hx2
      · rw [if_neg hnv]
        have hvn : (m n.1 n.2).visited = true := by
          rcases hb : (m n.1 n.2).visited with _ | _
          · exact absurd hb hnv
          · rfl
        obtain ⟨hEv, hPar, hCl, hBnd, hCnt, hRch, hClo, hAll⟩ :=
          ihL m k hpin hpv hfuel hpar hcl hbnd hLrest
        refine ⟨hEv, hPar, hCl, hBnd, hCnt, hRch, hClo, ?_⟩
        intro x hx
        rcases List.mem_cons.mp hx with rfl | hx2
        · exact Evol_visited hEv hvn
        · exact hAll x hx2

/-! ## From the closure invariant to full coverage -/

/-- A visited set containing `root` and closed under in-bounds adjacency
covers the whole grid (the grid graph is connected). -/
theorem closure_all_visited {W H : ℕ} {g : MazeGrid} {root : ℕ × ℕ}
    (hroot : inb W H root) (hrv : (g root.1 root.2).visited = true)
    (hclo : ∀ q, inb W H q → (g q.1 q.2).visited = true →
      ∀ r ∈ GetNeighbors W H q.1 q.2, (g r.1 r.2).visited = true) :
    ∀ q, inb W H q → (g q.1 q.2).visited = true := by
  have key : ∀ d q, inb W H q →
      (q.1 - root.1) + (root.1 - q.1) + (q.2 - root.2) + (root.2 - q.2) = d →
      (g q.1 q.2).visited = true := by
    intro d
    induction d using Nat.strong_induction_on with
    | _ d ihd =>
      intro q hq hd
      by_cases h0 : d = 0
      · have hqr : q = root := Prod.ext (by omega) (by omega)
        rw [hqr]
        exact hrv
      · by_cases h1 : root.1 < q.1
        · have hq2 : inb W H (q.1 - 1, q.2) := ⟨by have := hq.1; omega, hq.2⟩
          have hvq2 := ihd (d - 1) (by omega) (q.1 - 1, q.2) hq2 (by
            show q.1 - 1 - root.1 + (root.1 - (q.1 - 1)) + (q.2 - root.2) +
              (root.2 - q.2) = d - 1
            omega)
          have hmem : q ∈ GetNeighbors W H (q.1 - 1) q.2 :=
            adjacent_mem_GetNeighbors hq2 hq (Or.inr (Or.inl ⟨by omega, rfl⟩))
          exact hclo (q.1 - 1, q.2) hq2 hvq2 q hmem
        · by_cases h2 : q.1 < root.1
          · have hq2 : inb W H (q.1 + 1, q.2) := ⟨by have := hroot.1; omega, hq.2⟩
            have hvq2 := ihd (d - 1) (by omega) (q.1 + 1, q.2) hq2 (by
              show q.1 + 1 - root.1 + (root.1 - (q.1 + 1)) + (q.2 - root.2) +
                (root.2 - q.2) = d - 1
              omega)
            have hmem : q ∈ GetNeighbors W H (q.1 + 1) q.2 :=
              adjacent_mem_GetNeighbors hq2 hq
                (Or.inr (Or.inr (Or.inr ⟨by omega, rfl⟩)))
            exact hclo (q.1 + 1, q.2) hq2 hvq2 q hmem
          · by_cases h3 : root.2 < q.2
            · have hq2 : inb W H (q.1, q.2 - 1) := ⟨hq.1, by have := hq.2; omega⟩
              have hvq2 := ihd (d - 1) (by omega) (q.1, q.2 - 1) hq2 (by
                show q.1 - root.1 + (root.1 - q.1) + (q.2 - 1 - root.2) +
                  (root.2 - (q.2 - 1)) = d - 1
                omega)
              have hmem : q ∈ GetNeighbors W H q.1 (q.2 - 1) :=
                adjacent_mem_GetNeighbors hq2 hq
                  (Or.inr (Or.inr (Or.inl ⟨rfl, by omega⟩)))
              exact hclo (q.1, q.2 - 1) hq2 hvq2 q hmem
            · by_cases h4 : q.2 < root.2
              · have hq2 : inb W H (q.1, q.2 + 1) := ⟨hq.1, by have := hroot.2; omega⟩
                have hvq2 := ihd (d - 1) (by omega) (q.1, q.2 + 1) hq2 (by
                  show q.1 - root.1 + (root.1 - q.1) + (q.2 + 1 - root.2) +
                    (root.2 - (q.2 + 1)) = d - 1
                  omega)
                have hmem : q ∈ GetNeighbors W H q.1 (q.2 + 1) :=
                  adjacent_mem_GetNeighbors hq2 hq (Or.inl ⟨rfl, by omega⟩)
                exact hclo (q.1, q.2 + 1) hq2 hvq2 q hmem
              · exact absurd hd (by omega)
  intro q hq
  exact key _ q hq rfl

/-! ## The fully carved grid, before the doors -/

theorem unvisCount_initGrid (W H : ℕ) : unvisCount W H initGrid = W * H := by
  unfold unvisCount
  rw [Finset.filter_true_of_mem (fun x _ => (rfl : (initGrid x.1 x.2).visited = false))]
  unfold cellsFin
  rw [Finset.card_product, Finset.card_range, Finset.card_range]

theorem edgeCount_initGrid (W H : ℕ) : edgeCount W H initGrid = 0 := by
  unfold edgeCount
  rw [Finset.filter_false_of_mem, Finset.filter_false_of_mem]
  · simp
  · intro x _ hc
    have := hc.2
    simp [initGrid, initCell] at this
  · intro x _ hc
    have := hc.2
    simp [initGrid, initCell] at this

theorem flagToward_initGrid (p q : ℕ × ℕ) : flagToward initGrid p q = true := by
  unfold flagToward initGrid initCell
  split_ifs <;> rfl

theorem Paired_initGrid (W H : ℕ) : Paired W H initGrid :=
  fun p q _ _ _ => by rw [flagToward_initGrid, flagToward_initGrid]

theorem ClosedExcept_initGrid (W H : ℕ) (r : ℕ × ℕ) : ClosedExcept W H initGrid r := by
  intro p q _ _ _ hopen
  rcases hopen with h | h <;> rw [flagToward_initGrid] at h <;> simp at h

theorem BoundaryClosed_initGrid (W H : ℕ) : BoundaryClosed W H initGrid := by
  intro p side _ _
  show wallSide initCell side = true
  unfold wallSide initCell
  split_ifs <;> rfl

theorem unvisCount_eq_zero_of_all {W H : ℕ} {m : MazeGrid}
    (h : ∀ q, inb W H q → (m q.1 q.2).visited = true) : unvisCount W H m = 0 := by
  apply Finset.card_eq_zero.mpr
  apply Finset.eq_empty_iff_forall_not_mem.mpr
  intro q hq
  rcases Finset.mem_filter.mp hq with ⟨hqin, hv⟩
  rw [h q (mem_cellsFin.mp hqin)] at hv
  simp at hv

/-- Summary of the carving phase: starting from the fully walled grid at
the exit cell with fuel `W*H`, the carver visits every cell, keeps walls
paired and the boundary closed, removes exactly `W*H - 1` internal walls
and leaves every cell open-reachable from the root. -/
theorem GenerateMaze_carve_spec (ρ : ℕ → ℕ) (W H sx sy : ℕ) (hs : inb W H (sx, sy)) :
    (∀ q, inb W H q →
      (((GenerateMaze ρ W H (W * H) (sx, sy) ⟨initGrid, 0⟩).maze) q.1 q.2).visited
        = true) ∧
    Paired W H ((GenerateMaze ρ W H (W * H) (sx, sy) ⟨initGrid, 0⟩).maze) ∧
    BoundaryClosed W H ((GenerateMaze ρ W H (W * H) (sx, sy) ⟨initGrid, 0⟩).maze) ∧
    edgeCount W H ((GenerateMaze ρ W H (W * H) (sx, sy) ⟨initGrid, 0⟩).maze) + 1
      = W * H ∧
    (∀ q, inb W H q →
      openReach W H ((GenerateMaze ρ W H (W * H) (sx, sy) ⟨initGrid, 0⟩).maze)
        (sx, sy) q) := by
  obtain ⟨hEv, hVis, hPar, hCl, hBnd, hCnt, hRch, hClo⟩ :=
    (gen_main ρ W H (W * H)).1 (sx, sy) initGrid 0 hs rfl
      (le_of_eq (unvisCount_initGrid W H)) (Paired_initGrid W H)
      (ClosedExcept_initGrid W H (sx, sy)) (BoundaryClosed_initGrid W H)
  have hall : ∀ q, inb W H q →
      (((GenerateMaze ρ W H (W * H) (sx, sy) ⟨initGrid, 0⟩).maze) q.1 q.2).visited
        = true := by
    apply closure_all_visited hs hVis
    intro q hq hv r hr
    apply hClo q hq _ r hr
    by_cases hqp : q = (sx, sy)
    · exact Or.inr hqp
    · left
      refine ⟨hv, rfl⟩
  refine ⟨hall, hPar, hBnd, ?_, ?_⟩
  · have h0 : unvisCount W H
        ((GenerateMaze ρ W H (W * H) (sx, sy) ⟨initGrid, 0⟩).maze) = 0 :=
      unvisCount_eq_zero_of_all hall
    rw [edgeCount_initGrid, unvisCount_initGrid] at hCnt
    omega
  · intro q hq
    rcases hRch q hq (hall q hq) with hv0 | hr
    · simp [initGrid, initCell] at hv0
    · exact hr

/-! ## Installing the doors -/

theorem setCell_clearSide_visited (m : MazeGrid) (x y s : ℕ) (a b : ℕ) :
    ((setCell m x y (clearSide (m x y) s)) a b).visited = (m a b).visited := by
  by_cases h : a = x ∧ b = y
  · obtain ⟨rfl, rfl⟩ := h
    rw [setCell_self, clearSide_visited]
  · rw [setCell_other _ _ _ _ h]

theorem setCell_clearSide_wallSide (m : MazeGrid) (x y : ℕ) {s : ℕ} (hs : s ≤ 3)
    (a b t : ℕ) :
    wallSide ((setCell m x y (clearSide (m x y) s)) a b) t =
      if a = x ∧ b = y ∧ t = s then false else wallSide (m a b) t := by
  by_cases h : a = x ∧ b = y
  · obtain ⟨rfl, rfl⟩ := h
    by_cases ht : t = s
    · subst ht
      rw [setCell_self, wallSide_clearSide_self _ hs]
      simp
    · rw [setCell_self, wallSide_clearSide_other _ (fun he => ht he.symm)]
      simp [ht]
  · rw [setCell_other _ _ _ _ h]
    have hni : ¬(a = x ∧ b = y ∧ t = s) := fun hc => h ⟨hc.1, hc.2.1⟩
    simp [hni]

theorem InstallDoors_visited (m : MazeGrid) (ex ey en sx sy exi : ℕ) (a b : ℕ) :
    ((InstallDoors m ex ey en sx sy exi) a b).visited = (m a b).visited := by
  simp only [InstallDoors]
  split_ifs <;>
    simp only [setCell_clearSide_visited]

theorem InstallDoors_wallSide (m : MazeGrid) {ex ey en sx sy exi : ℕ}
    (hen : en ≤ 3) (hexi : exi ≤ 3) (a b side : ℕ) :
    wallSide ((InstallDoors m ex ey en sx sy exi) a b) side =
      if (a = sx ∧ b = sy ∧ side = exi) ∨ (a = ex ∧ b = ey ∧ side = en) then false
      else wallSide (m a b) side := by
  simp only [InstallDoors]
  rw [if_pos hexi, if_pos hen]
  rw [setCell_clearSide_wallSide _ _ _ hexi, setCell_clearSide_wallSide _ _ _ hen]
  by_cases h1 : a = sx ∧ b = sy ∧ side = exi
  · simp [h1]
  · by_cases h2 : a = ex ∧ b = ey ∧ side = en
    · simp [h1, h2]
    · simp [h1, h2]

theorem Evol_setCell_clearSide (m : MazeGrid) (x y s : ℕ) :
    Evol m (setCell m x y (clearSide (m x y) s)) := by
  intro a b
  by_cases h : a = x ∧ b = y
  · obtain ⟨rfl, rfl⟩ := h
    rw [setCell_self]
    unfold clearSide
    split_ifs <;> refine ⟨?_, ?_, ?_, ?_, ?_⟩ <;> simp
  · rw [setCell_other _ _ _ _ h]
    exact ⟨id, id, id, id, id⟩

theorem Evol_InstallDoors (m : MazeGrid) (ex ey en sx sy exi : ℕ) :
    Evol m (InstallDoors m ex ey en sx sy exi) := by
  simp only [InstallDoors]
  split_ifs
  · exact Evol_trans (Evol_setCell_clearSide m ex ey en)
      (Evol_setCell_clearSide _ sx sy exi)
  · exact Evol_setCell_clearSide m sx sy exi
  · exact Evol_setCell_clearSide m ex ey en
  · exact Evol_refl m

theorem outFacing_le_three {W H : ℕ} {p : ℕ × ℕ} {s : ℕ} (h : outFacing W H p s) :
    s ≤ 3 := by
  rcases h with ⟨h, _⟩ | ⟨h, _⟩ | ⟨h, _⟩ | ⟨h, _⟩ <;> omega

theorem wallSide_one (c : Cell) : wallSide c 1 = c.right := rfl

theorem wallSide_two (c : Cell) : wallSide c 2 = c.bottom := rfl

theorem edgeCount_InstallDoors {W H : ℕ} (m : MazeGrid) {ex ey en sx sy exi : ℕ}
    (hen : outFacing W H (ex, ey) en) (hexi : outFacing W H (sx, sy) exi) :
    edgeCount W H (InstallDoors m ex ey en sx sy exi) = edgeCount W H m := by
  have hen3 : en ≤ 3 := outFacing_le_three hen
  have hexi3 : exi ≤ 3 := outFacing_le_three hexi
  simp only [outFacing] at hen hexi
  unfold edgeCount
  congr 1
  · apply congrArg Finset.card
    apply Finset.filter_congr
    intro q _
    by_cases hqW : q.1 + 1 < W
    · have he : ((InstallDoors m ex ey en sx sy exi) q.1 q.2).right =
          (m q.1 q.2).right := by
        rw [← wallSide_one, ← wallSide_one,
          InstallDoors_wallSide m hen3 hexi3 q.1 q.2 1, if_neg (by omega)]
      rw [he]
    · simp [hqW]
  · apply congrArg Finset.card
    apply Finset.filter_congr
    intro q _
    by_cases hqH : q.2 + 1 < H
    · have he : ((InstallDoors m ex ey en sx sy exi) q.1 q.2).bottom =
          (m q.1 q.2).bottom := by
        rw [← wallSide_two, ← wallSide_two,
          InstallDoors_wallSide m hen3 hexi3 q.1 q.2 2, if_neg (by omega)]
      rw [he]
    · simp [hqH]

/-- Summary of the whole generation phase (`GenerateMaze` rooted at the
exit cell, then `InstallDoors`): walls are paired, exactly `W*H - 1`
internal walls are removed, every cell is open-reachable from the exit
cell, and the only open outward-facing flags are the two doors. -/
theorem GeneratedGrid_spec (ρ : ℕ → ℕ) (W H sx sy ex ey en exi : ℕ)
    (hs : inb W H (sx, sy))
    (hen : outFacing W H (ex, ey) en) (hexi : outFacing W H (sx, sy) exi) :
    Paired W H (GeneratedGrid ρ W H sx sy ex ey en exi) ∧
    (edgeCount W H (GeneratedGrid ρ W H sx sy ex ey en exi) + 1 = W * H) ∧
    (∀ q, inb W H q →
      openReach W H (GeneratedGrid ρ W H sx sy ex ey en exi) (sx, sy) q) ∧
    (∀ p side, inb W H p → outFacing W H p side →
      (wallSide ((GeneratedGrid ρ W H sx sy ex ey en exi) p.1 p.2) side = false ↔
        ((p = (ex, ey) ∧ side = en) ∨ (p = (sx, sy) ∧ side = exi)))) := by
  obtain ⟨hall, hPar, hBnd, hCnt, hRch⟩ := GenerateMaze_carve_spec ρ W H sx sy hs
  have hen3 : en ≤ 3 := outFacing_le_three hen
  have hexi3 : exi ≤ 3 := outFacing_le_three hexi
  refine ⟨?_, ?_, ?_, ?_⟩
  · intro p q hp hq hadj
    unfold GeneratedGrid
    rw [flagToward_def, flagToward_def,
      InstallDoors_wallSide _ hen3 hexi3, InstallDoors_wallSide _ hen3 hexi3]
    rw [if_neg ?c1, if_neg ?c2]
    case c1 =>
      intro hc
      rcases hc with ⟨h1, h2, h3⟩ | ⟨h1, h2, h3⟩
      · rw [← h3] at hexi
        rw [show (sx, sy) = p from (Prod.ext h1 h2).symm] at hexi
        exact dirTo_not_outFacing hadj hq hexi
      · rw [← h3] at hen
        rw [show (ex, ey) = p from (Prod.ext h1 h2).symm] at hen
        exact dirTo_not_outFacing hadj hq hen
    case c2 =>
      intro hc
      rcases hc with ⟨h1, h2, h3⟩ | ⟨h1, h2, h3⟩
      · rw [← h3] at hexi
        rw [show (sx, sy) = q from (Prod.ext h1 h2).symm] at hexi
        exact dirTo_not_outFacing (adjacent_symm hadj) hp hexi
      · rw [← h3] at hen
        rw [show (ex, ey) = q from (Prod.ext h1 h2).symm] at hen
        exact dirTo_not_outFacing (adjacent_symm hadj) hp hen
    have := hPar p q hp hq hadj
    rw [flagToward_def, flagToward_def] at this
    exact this
  · unfold GeneratedGrid
    rw [edgeCount_InstallDoors _ hen hexi]
    exact hCnt
  · intro q hq
    exact Evol_openReach (Evol_InstallDoors _ ex ey en sx sy exi) (hRch q hq)
  · intro p side hp hface
    unfold GeneratedGrid
    rw [InstallDoors_wallSide _ hen3 hexi3]
    by_cases hc : (p.1 = sx ∧ p.2 = sy ∧ side = exi) ∨ (p.1 = ex ∧ p.2 = ey ∧ side = en)
    · rw [if_pos hc]
      constructor
      · intro _
        rcases hc with ⟨h1, h2, h3⟩ | ⟨h1, h2, h3⟩
        · exact Or.inr ⟨Prod.ext h1 h2, h3⟩
        · exact Or.inl ⟨Prod.ext h1 h2, h3⟩
      · intro _
        rfl
    · rw [if_neg hc, hBnd p side hp hface]
      constructor
      · intro hcon
        simp at hcon
      · intro hcon
        exfalso
        apply hc
        rcases hcon with ⟨h1, h2⟩ | ⟨h1, h2⟩
        · rw [h1]
          exact Or.inr ⟨rfl, rfl, h2⟩
        · rw [h1]
          exact Or.inl ⟨rfl, rfl, h2⟩

/-! ## Claims C1 and C5 -/

/-- C1: for every width ≥ 1 and height ≥ 1 with entrance ≠ exit (and the
configured door sides facing outward, as the data model requires of
entrance/exit points), the grid produced by `GenerateMaze` rooted at the
exit cell followed by `InstallDoors` has exactly `width*height - 1`
internal walls removed and is fully connected: every cell is reachable
from every other cell through removed internal walls (the spanning-tree
property that makes the maze perfect). -/
theorem GeneratedGrid_spanning_tree (ρ : ℕ → ℕ)
    (W H sx sy ex ey enterSide exitSide : ℕ)
    (hW : 1 ≤ W) (hH : 1 ≤ H)
    (hexitIn : inb W H (sx, sy)) (hentIn : inb W H (ex, ey))
    (hne : (ex, ey) ≠ (sx, sy))
    (hent : outFacing W H (ex, ey) enterSide)
    (hexi : outFacing W H (sx, sy) exitSide) :
    edgeCount W H (GeneratedGrid ρ W H sx sy ex ey enterSide exitSide) = W * H - 1 ∧
    ∀ a b, inb W H a → inb W H b →
      openReach W H (GeneratedGrid ρ W H sx sy ex ey enterSide exitSide) a b := by
  obtain ⟨_, hCnt, hRch, _⟩ :=
    GeneratedGrid_spec ρ W H sx sy ex ey enterSide exitSide hexitIn hent hexi
  refine ⟨by omega, ?_⟩
  intro a b ha hb
  exact Relation.ReflTransGen.trans (openReach_symm (hRch a ha)) (hRch b hb)

theorem GeneratedGrid_spanning_tree_witness :
    edgeCount 2 1 (GeneratedGrid (fun _ => 0) 2 1 1 0 0 0 3 1) = 2 * 1 - 1 ∧
    ∀ a b, inb 2 1 a → inb 2 1 b →
      openReach 2 1 (GeneratedGrid (fun _ => 0) 2 1 1 0 0 0 3 1) a b :=
  GeneratedGrid_spanning_tree (fun _ => 0) 2 1 1 0 0 0 3 1
    (by decide) (by decide) (by decide) (by decide) (by decide) (by decide) (by decide)

/-- C5: in every generated grid, internal wall removals are paired — for
every pair of adjacent in-bounds cells `a` and `b`, `a`'s wall flag on
the side facing `b` is open iff `b`'s wall flag on the side facing `a`
is open — and the only single-sided (outward-facing boundary) openings
are the entrance and exit walls punched by `InstallDoors`. -/
theorem GeneratedGrid_walls_paired (ρ : ℕ → ℕ)
    (W H sx sy ex ey enterSide exitSide : ℕ)
    (hexitIn : inb W H (sx, sy)) (hentIn : inb W H (ex, ey))
    (hent : outFacing W H (ex, ey) enterSide)
    (hexi : outFacing W H (sx, sy) exitSide) :
    (∀ a b, inb W H a → inb W H b → adjacent a b →
      (flagToward (GeneratedGrid ρ W H sx sy ex ey enterSide exitSide) a b = false ↔
        flagToward (GeneratedGrid ρ W H sx sy ex ey enterSide exitSide) b a = false)) ∧
    (∀ p side, inb W H p → outFacing W H p side →
      (wallSide ((GeneratedGrid ρ W H sx sy ex ey enterSide exitSide) p.1 p.2) side
          = false ↔
        (p = (ex, ey) ∧ side = enterSide) ∨ (p = (sx, sy) ∧ side = exitSide))) := by
  obtain ⟨hPar, _, _, hDoors⟩ :=
    GeneratedGrid_spec ρ W H sx sy ex ey enterSide exitSide hexitIn hent hexi
  refine ⟨?_, hDoors⟩
  intro a b ha hb hadj
  rw [hPar a b ha hb hadj]

theorem GeneratedGrid_walls_paired_witness :
    (∀ a b, inb 2 1 a → inb 2 1 b → adjacent a b →
      (flagToward (GeneratedGrid (fun _ => 0) 2 1 1 0 0 0 3 1) a b = false ↔
        flagToward (GeneratedGrid (fun _ => 0) 2 1 1 0 0 0 3 1) b a = false)) ∧
    (∀ p side, inb 2 1 p → outFacing 2 1 p side →
      (wallSide ((GeneratedGrid (fun _ => 0) 2 1 1 0 0 0 3 1) p.1 p.2) side = false ↔
        (p = (0, 0) ∧ side = 3) ∨ (p = (1, 0) ∧ side = 1))) :=
  GeneratedGrid_walls_paired (fun _ => 0) 2 1 1 0 0 0 3 1
    (by decide) (by decide) (by decide) (by decide)

/-! ## The maze solver (`SolveMaze` / `Solver` / `GetNeighborAccess`) -/

/-- Solver state: the grid (whose visited flags the solver mutates), the
global `Solution_List` (JS `push` appends at the end) and the global
`Steps_to_Solve` counter. -/
structure SolSt where
  maze : MazeGrid
  sol : List (ℕ × ℕ)
  steps : ℕ

/-- JS `GetNeighborAccess(x, y)`: the neighbors reachable through a
removed wall that are in bounds and not yet visited, in source order:
up, right, down, left. -/
def GetNeighborAccess (W H : ℕ) (m : MazeGrid) (x y : ℕ) : List (ℕ × ℕ) :=
  (if (m x y).top = false ∧ y ≠ 0 ∧ (m x (y - 1)).visited = false
    then [(x, y - 1)] else []) ++
  (if (m x y).right = false ∧ x ≠ W - 1 ∧ (m (x + 1) y).visited = false
    then [(x + 1, y)] else []) ++
  (if (m x y).bottom = false ∧ y ≠ H - 1 ∧ (m x (y + 1)).visited = false
    then [(x, y + 1)] else []) ++
  (if (m x y).left = false ∧ x ≠ 0 ∧ (m (x - 1) y).visited = false
    then [(x - 1, y)] else [])

mutual

/-- JS `Solver(x, y)` (the recursive path finder), with fuel.  At the
ending point it pushes itself and reports success; otherwise it marks
itself visited, gathers the accessible unvisited neighbors and loops
over them.  On the successful unwind every cell pushes itself onto
`Solution_List` and bumps `Steps_to_Solve`. -/
def Solver (W H sx sy : ℕ) : ℕ → ℕ → ℕ → SolSt → Option (Bool × SolSt)
  | 0, _, _, _ => none
  | Nat.succ fuel, x, y, st =>
    if x = sx ∧ y = sy then
      some (true, { st with sol := st.sol ++ [(x, y)] })
    else
      SolverLoop W H sx sy fuel x y
        (GetNeighborAccess W H (markVisited st.maze x y) x y)
        { st with maze := markVisited st.maze x y }
  termination_by fuel _ _ _ => (fuel, 0, 0)

/-- The `for` loop over the accessible neighbors inside `Solver`. -/
def SolverLoop (W H sx sy : ℕ) : ℕ → ℕ → ℕ → List (ℕ × ℕ) → SolSt →
    Option (Bool × SolSt)
  | _, _, _, [], st => some (false, st)
  | fuel, x, y, n :: rest, st =>
    match Solver W H sx sy fuel n.1 n.2 st with
    | none => none
    | some (true, st2) =>
      some (true, { st2 with sol := st2.sol ++ [(x, y)], steps := st2.steps + 1 })
    | some (false, st2) => SolverLoop W H sx sy fuel x y rest st2
  termination_by fuel _ _ l _ => (fuel, 1, l.length)

end

/-- The reset loop at the start of JS `SolveMaze`: clear every visited
flag. -/
def resetVisited (m : MazeGrid) : MazeGrid := fun a b => { m a b with visited := false }

/-- JS `SolveMaze()`: reset the visited flags and run `Solver` from the
entrance (`ENTRANCE_X`, `ENTRANCE_Y`) with the designated exit
(`STARTING_X`, `STARTING_Y`), starting from the reset `Solution_List`
and `Steps_to_Solve` globals. -/
def SolveMaze (fuel W H enx eny sx sy : ℕ) (m : MazeGrid) : Option (Bool × SolSt) :=
  Solver W H sx sy fuel enx eny { maze := resetVisited m, sol := [], steps := 0 }

theorem wallSide_zero (c : Cell) : wallSide c 0 = c.top := rfl

theorem wallSide_three (c : Cell) : wallSide c 3 = c.left := rfl

/-- Caller-to-callee relation along the solution path: `b` is the cell
from whose access list `a` was taken (`a` and `b` are adjacent and `b`'s
wall toward `a` is removed). -/
def solStep (W H : ℕ) (m : MazeGrid) (a b : ℕ × ℕ) : Prop :=
  inb W H a ∧ inb W H b ∧ adjacent b a ∧ flagToward m b a = false

theorem mem_GetNeighborAccess {W H : ℕ} {m : MazeGrid} {x y : ℕ} {n : ℕ × ℕ}
    (hin : inb W H (x, y)) (hn : n ∈ GetNeighborAccess W H m x y) :
    inb W H n ∧ adjacent (x, y) n ∧ flagToward m (x, y) n = false ∧
      (m n.1 n.2).visited = false := by
  have hW : x < W := hin.1
  have hH : y < H := hin.2
  unfold GetNeighborAccess at hn
  simp only [List.mem_append] at hn
  rcases hn with ((hn | hn) | hn) | hn
  · split_ifs at hn with hc
    · rw [List.mem_singleton] at hn
      subst hn
      refine ⟨⟨hW, by omega⟩, Or.inl ⟨rfl, by omega⟩, ?_, hc.2.2⟩
      rw [flagToward_def,
        (dirTo_above (p := (x, y)) (q := (x, y - 1)) ⟨rfl, by omega⟩).1, wallSide_zero]
      exact hc.1
    · exact absurd hn (List.not_mem_nil n)
  · split_ifs at hn with hc
    · rw [List.mem_singleton] at hn
      subst hn
      refine ⟨⟨by omega, hH⟩, Or.inr (Or.inl ⟨rfl, rfl⟩), ?_, hc.2.2⟩
      rw [flagToward_def,
        (dirTo_right (p := (x, y)) (q := (x + 1, y)) ⟨rfl, rfl⟩).1, wallSide_one]
      exact hc.1
    · exact absurd hn (List.not_mem_nil n)
  · split_ifs at hn with hc
    · rw [List.mem_singleton] at hn
      subst hn
      refine ⟨⟨hW, by omega⟩, Or.inr (Or.inr (Or.inl ⟨rfl, rfl⟩)), ?_, hc.2.2⟩
      rw [flagToward_def,
        (dirTo_below (p := (x, y)) (q := (x, y + 1)) ⟨rfl, rfl⟩).1, wallSide_two]
      exact hc.1
    · exact absurd hn (List.not_mem_nil n)
  · split_ifs at hn with hc
    · rw [List.mem_singleton] at hn
      subst hn
      refine ⟨⟨by omega, hH⟩, Or.inr (Or.inr (Or.inr ⟨by omega, rfl⟩)), ?_, hc.2.2⟩
      rw [flagToward_def,
        (dirTo_left (p := (x, y)) (q := (x - 1, y)) ⟨by omega, rfl⟩).1, wallSide_three]
      exact hc.1
    · exact absurd hn (List.not_mem_nil n)

theorem mem_GetNeighborAccess_of {W H : ℕ} {m : MazeGrid} {x y : ℕ} {r : ℕ × ℕ}
    (hin : inb W H (x, y)) (hr : inb W H r) (hadj : adjacent (x, y) r)
    (hflag : flagToward m (x, y) r = false) (hv : (m r.1 r.2).visited = false) :
    r ∈ GetNeighborAccess W H m x y := by
  obtain ⟨r1, r2⟩ := r
  have hW : x < W := hin.1
  have hH : y < H := hin.2
  have hr1 : r1 < W := hr.1
  have hr2 : r2 < H := hr.2
  unfold GetNeighborAccess
  simp only [List.mem_append]
  simp only [adjacent] at hadj
  rcases hadj with ⟨hc1, hc2⟩ | ⟨hc1, hc2⟩ | ⟨hc1, hc2⟩ | ⟨hc1, hc2⟩
  · refine Or.inl (Or.inl (Or.inl ?_))
    rw [flagToward_def,
      (dirTo_above (p := (x, y)) (q := (r1, r2)) ⟨hc1, hc2⟩).1, wallSide_zero] at hflag
    have hcnd : (m x y).top = false ∧ y ≠ 0 ∧ (m x (y - 1)).visited = false :=
      ⟨hflag, by omega, by rw [show x = r1 from hc1, show y - 1 = r2 by omega]; exact hv⟩
    rw [if_pos hcnd, List.mem_singleton]
    exact Prod.ext (by omega) (by omega)
  · refine Or.inl (Or.inl (Or.inr ?_))
    rw [flagToward_def,
      (dirTo_right (p := (x, y)) (q := (r1, r2)) ⟨hc1, hc2⟩).1, wallSide_one] at hflag
    have hcnd : (m x y).right = false ∧ x ≠ W - 1 ∧ (m (x + 1) y).visited = false :=
      ⟨hflag, by omega, by rw [show x + 1 = r1 by omega, show y = r2 from hc2]; exact hv⟩
    rw [if_pos hcnd, List.mem_singleton]
    exact Prod.ext (by omega) (by omega)
  · refine Or.inl (Or.inr ?_)
    rw [flagToward_def,
      (dirTo_below (p := (x, y)) (q := (r1, r2)) ⟨hc1, hc2⟩).1, wallSide_two] at hflag
    have hcnd : (m x y).bottom = false ∧ y ≠ H - 1 ∧ (m x (y + 1)).visited = false :=
      ⟨hflag, by omega, by rw [show x = r1 from hc1, show y + 1 = r2 by omega]; exact hv⟩
    rw [if_pos hcnd, List.mem_singleton]
    exact Prod.ext (by omega) (by omega)
  · refine Or.inr ?_
    rw [flagToward_def,
      (dirTo_left (p := (x, y)) (q := (r1, r2)) ⟨hc1, hc2⟩).1, wallSide_three] at hflag
    have hcnd : (m x y).left = false ∧ x ≠ 0 ∧ (m (x - 1) y).visited = false :=
      ⟨hflag, by omega, by rw [show x - 1 = r1 by omega, show y = r2 from hc2]; exact hv⟩
    rw [if_pos hcnd, List.mem_singleton]
    exact Prod.ext (by omega) (by omega)

/-! ## What the solver does to the grid: marks only -/

/-- The solver only sets visited flags; walls are untouched. -/
def SEvol (m m' : MazeGrid) : Prop :=
  ∀ a b, ((m a b).visited = true → (m' a b).visited = true) ∧
    (m' a b).top = (m a b).top ∧ (m' a b).right = (m a b).right ∧
    (m' a b).bottom = (m a b).bottom ∧ (m' a b).left = (m a b).left

theorem SEvol_refl (m : MazeGrid) : SEvol m m :=
  fun _ _ => ⟨id, rfl, rfl, rfl, rfl⟩

theorem SEvol_trans {m1 m2 m3 : MazeGrid} (h1 : SEvol m1 m2) (h2 : SEvol m2 m3) :
    SEvol m1 m3 := by
  intro a b
  obtain ⟨v1, t1, r1, b1, l1⟩ := h1 a b
  obtain ⟨v2, t2, r2, b2, l2⟩ := h2 a b
  exact ⟨fun h => v2 (v1 h), t2.trans t1, r2.trans r1, b2.trans b1, l2.trans l1⟩

theorem SEvol_markVisited (m : MazeGrid) (x y : ℕ) : SEvol m (markVisited m x y) := by
  intro a b
  by_cases h : a = x ∧ b = y
  · obtain ⟨rfl, rfl⟩ := h
    rw [markVisited_self]
    exact ⟨fun _ => rfl, rfl, rfl, rfl, rfl⟩
  · rw [markVisited_other _ _ _ h]
    exact ⟨id, rfl, rfl, rfl, rfl⟩

theorem Evol_of_SEvol {m m' : MazeGrid} (h : SEvol m m') : Evol m m' := by
  intro a b
  obtain ⟨v, t, r, bb, l⟩ := h a b
  exact ⟨v, fun hh => t ▸ hh, fun hh => r ▸ hh, fun hh => bb ▸ hh, fun hh => l ▸ hh⟩

theorem SEvol_wallSide {m m' : MazeGrid} (h : SEvol m m') (a b s : ℕ) :
    wallSide (m' a b) s = wallSide (m a b) s := by
  obtain ⟨_, t, r, bb, l⟩ := h a b
  unfold wallSide
  split_ifs <;> first | exact t | exact r | exact bb | exact l | rfl

theorem SEvol_flagToward {m m' : MazeGrid} (h : SEvol m m') (p q : ℕ × ℕ) :
    flagToward m' p q = flagToward m p q := by
  rw [flagToward_def, flagToward_def, SEvol_wallSide h]

theorem SEvol_visited {m m' : MazeGrid} (h : SEvol m m') {a b : ℕ}
    (hv : (m a b).visited = true) : (m' a b).visited = true :=
  (h a b).1 hv

theorem unvisCount_markVisited_visited {W H : ℕ} {m : MazeGrid} {x y : ℕ}
    (hv : (m x y).visited = true) :
    unvisCount W H (markVisited m x y) = unvisCount W H m := by
  apply congrArg Finset.card
  apply Finset.filter_congr
  intro b _
  by_cases h : b.1 = x ∧ b.2 = y
  · obtain ⟨h1, h2⟩ := h
    rw [h1, h2, markVisited_self, hv]
  · rw [markVisited_other _ _ _ h]

/-! ## Solver unfolding equations -/

theorem Solver_succ (W H sx sy f x y : ℕ) (m : MazeGrid) (sol : List (ℕ × ℕ))
    (steps : ℕ) :
    Solver W H sx sy (f + 1) x y ⟨m, sol, steps⟩ =
      if x = sx ∧ y = sy then some (true, ⟨m, sol ++ [(x, y)], steps⟩)
      else SolverLoop W H sx sy f x y (GetNeighborAccess W H (markVisited m x y) x y)
        ⟨markVisited m x y, sol, steps⟩ := by
  rw [Solver]

theorem SolverLoop_nil (W H sx sy f x y : ℕ) (m : MazeGrid) (sol : List (ℕ × ℕ))
    (steps : ℕ) :
    SolverLoop W H sx sy f x y [] ⟨m, sol, steps⟩ = some (false, ⟨m, sol, steps⟩) := by
  rw [SolverLoop]

theorem SolverLoop_cons (W H sx sy f x y : ℕ) (n : ℕ × ℕ) (rest : List (ℕ × ℕ))
    (m : MazeGrid) (sol : List (ℕ × ℕ)) (steps : ℕ) :
    SolverLoop W H sx sy f x y (n :: rest) ⟨m, sol, steps⟩ =
      match Solver W H sx sy f n.1 n.2 ⟨m, sol, steps⟩ with
      | none => none
      | some (true, st2) =>
        some (true, ⟨st2.maze, st2.sol ++ [(x, y)], st2.steps + 1⟩)
      | some (false, st2) => SolverLoop W H sx sy f x y rest st2 := by
  rw [SolverLoop]

/-! ## The master invariant of the solver -/

/-- Result specification of a `Solver` call at `(x, y)` (grid `m`, list
`sol`, counter `steps` on entry): the call returns (fuel never runs out
under the preconditions), only marks cells, never marks the ending cell,
on success appends a block running from the ending cell back to `(x, y)`
whose consecutive entries are joined caller-to-callee through removed
walls and which bumps `Steps_to_Solve` by its length minus one, and on
failure changes neither `Solution_List` nor `Steps_to_Solve` and leaves
every newly visited cell with all of its open in-bounds neighbors
visited. -/
def SolRes (W H sx sy x y : ℕ) (m : MazeGrid) (sol : List (ℕ × ℕ)) (steps : ℕ)
    (res : Option (Bool × SolSt)) : Prop :=
  ∃ b m2 sol2 steps2, res = some (b, ⟨m2, sol2, steps2⟩) ∧
    SEvol m m2 ∧
    (m2 sx sy).visited = (m sx sy).visited ∧
    (b = true → ∃ q, sol2 = sol ++ q ∧ q ≠ [] ∧ q.head? = some (sx, sy) ∧
      q.getLast? = some (x, y) ∧ steps2 + 1 = steps + q.length ∧
      List.Chain' (solStep W H m2) q ∧ ∀ c ∈ q, inb W H c) ∧
    (b = false → sol2 = sol ∧ steps2 = steps ∧ (m2 x y).visited = true ∧
      ∀ qq, inb W H qq →
        (((m2 qq.1 qq.2).visited = true ∧ (m qq.1 qq.2).visited = false) ∨ qq = (x, y)) →
        ∀ r, inb W H r → adjacent qq r → flagToward m2 qq r = false →
          (m2 r.1 r.2).visited = true)

/-- Result specification of the neighbor loop inside `Solver`. -/
def SolResL (W H sx sy x y : ℕ) (L : List (ℕ × ℕ)) (m : MazeGrid)
    (sol : List (ℕ × ℕ)) (steps : ℕ) (res : Option (Bool × SolSt)) : Prop :=
  ∃ b m2 sol2 steps2, res = some (b, ⟨m2, sol2, steps2⟩) ∧
    SEvol m m2 ∧
    (m2 sx sy).visited = (m sx sy).visited ∧
    (b = true → ∃ q, sol2 = sol ++ q ∧ q ≠ [] ∧ q.head? = some (sx, sy) ∧
      q.getLast? = some (x, y) ∧ steps2 + 1 = steps + q.length ∧
      List.Chain' (solStep W H m2) q ∧ ∀ c ∈ q, inb W H c) ∧
    (b = false → sol2 = sol ∧ steps2 = steps ∧
      (∀ n ∈ L, (m2 n.1 n.2).visited = true) ∧
      ∀ qq, inb W H qq →
        ((m2 qq.1 qq.2).visited = true ∧ (m qq.1 qq.2).visited = false) →
        ∀ r, inb W H r → adjacent qq r → flagToward m2 qq r = false →
          (m2 r.1 r.2).visited = true)

theorem sol_main (W H sx sy : ℕ) (hsx : inb W H (sx, sy)) : ∀ fuel : ℕ,
    (∀ x y m sol steps, inb W H (x, y) →
      unvisCount W H m ≤ fuel →
      ((m x y).visited = true → unvisCount W H m < fuel) →
      SolRes W H sx sy x y m sol steps (Solver W H sx sy fuel x y ⟨m, sol, steps⟩)) ∧
    (∀ x y L m sol steps, inb W H (x, y) →
      unvisCount W H m ≤ fuel →
      (∀ n ∈ L, inb W H n ∧ adjacent (x, y) n ∧ flagToward m (x, y) n = false) →
      (∀ n ∈ L, (m n.1 n.2).visited = true → unvisCount W H m < fuel) →
      SolResL W H sx sy x y L m sol steps
        (SolverLoop W H sx sy fuel x y L ⟨m, sol, steps⟩)) := by
  intro fuel
  induction fuel with
  | zero =>
    constructor
    · intro x y m sol steps hin hf1 hf2
      rcases hb : (m x y).visited with _ | _
      · have := one_le_unvisCount hin hb
        omega
      · have := hf2 hb
        omega
    · intro x y L m sol steps hin hf1 hL hf2
      cases L with
      | nil =>
        rw [SolverLoop_nil]
        refine ⟨false, m, sol, steps, rfl, SEvol_refl m, rfl, ?_, ?_⟩
        · intro hc
          simp at hc
        · intro _
          refine ⟨rfl, rfl, fun n hn => absurd hn (List.not_mem_nil n), ?_⟩
          intro qq _ hcase
          rw [hcase.2] at hcase
          simp at hcase
      | cons n rest =>
        obtain ⟨hnin, _, _⟩ := hL n (List.mem_cons_self n rest)
        rcases hb : (m n.1 n.2).visited with _ | _
        · have := one_le_unvisCount hnin hb
          omega
        · have := hf2 n (List.mem_cons_self n rest) hb
          omega
  | succ f ih =>
    have visitSucc : ∀ x y m sol steps, inb W H (x, y) →
        unvisCount W H m ≤ f + 1 →
        ((m x y).visited = true → unvisCount W H m < f + 1) →
        SolRes W H sx sy x y m sol steps
          (Solver W H sx sy (f + 1) x y ⟨m, sol, steps⟩) := by
      intro x y m sol steps hin hf1 hf2
      rw [Solver_succ]
      by_cases hexit : x = sx ∧ y = sy
      · rw [if_pos hexit]
        refine ⟨true, m, sol ++ [(x, y)], steps, rfl, SEvol_refl m, rfl, ?_, ?_⟩
        · intro _
          refine ⟨[(x, y)], rfl, by simp, ?_, ?_, by simp, List.chain'_singleton _,
            fun c hc => by rw [List.mem_singleton] at hc; rw [hc]; exact hin⟩
          · rw [show x = sx from hexit.1, show y = sy from hexit.2]
            rfl
          · rfl
        · intro hc
          simp at hc
      · rw [if_neg hexit]
        have hunv1 : unvisCount W H (markVisited m x y) ≤ f := by
          rcases hb : (m x y).visited with _ | _
          · have h0 : unvisCount W H m = unvisCount W H (markVisited m x y) + 1 :=
              unvisCount_markVisited W H m hin hb
            omega
          · have h1 := unvisCount_markVisited_visited (W := W) (H := H) hb
            have := hf2 hb
            omega
        have hLspec : ∀ n ∈ GetNeighborAccess W H (markVisited m x y) x y,
            inb W H n ∧ adjacent (x, y) n ∧
              flagToward (markVisited m x y) (x, y) n = false := by
          intro n hn
          obtain ⟨h1, h2, h3, _⟩ := mem_GetNeighborAccess hin hn
          exact ⟨h1, h2, h3⟩
        have hLunv : ∀ n ∈ GetNeighborAccess W H (markVisited m x y) x y,
            ((markVisited m x y) n.1 n.2).visited = true →
              unvisCount W H (markVisited m x y) < f := by
          intro n hn hvn
          obtain ⟨_, _, _, h4⟩ := mem_GetNeighborAccess hin hn
          rw [h4] at hvn
          simp at hvn
        obtain ⟨b, m2, sol2, steps2, hres, hEv, hExit, hTrue, hFalse⟩ :=
          ih.2 x y (GetNeighborAccess W H (markVisited m x y) x y)
            (markVisited m x y) sol steps hin hunv1 hLspec hLunv
        have hExit2 : (m2 sx sy).visited = (m sx sy).visited := by
          rw [hExit, markVisited_other _ _ _
            (fun hc => hexit ⟨hc.1.symm, hc.2.symm⟩)]
        refine ⟨b, m2, sol2, steps2, hres,
          SEvol_trans (SEvol_markVisited m x y) hEv, hExit2, hTrue, ?_⟩
        intro hb
        obtain ⟨hsol, hsteps, hLvis, hClo⟩ := hFalse hb
        refine ⟨hsol, hsteps, SEvol_visited hEv (by rw [markVisited_self]), ?_⟩
        intro qq hqin hcase r hrin hadj hflag
        by_cases hqq : qq = (x, y)
        · rcases hbr : ((markVisited m x y) r.1 r.2).visited with _ | _
          · apply hLvis r
            refine mem_GetNeighborAccess_of hin hrin ?_ ?_ hbr
            · rw [← hqq]
              exact hadj
            · rw [← SEvol_flagToward hEv, ← hqq]
              exact hflag
          · exact SEvol_visited hEv hbr
        · rcases hcase with ⟨hv1, hv0⟩ | hceq
          · have hq1f : ((markVisited m x y) qq.1 qq.2).visited = false := by
              rw [markVisited_other _ _ _
                (fun hc => hqq (Prod.ext hc.1 hc.2))]
              exact hv0
            exact hClo qq hqin ⟨hv1, hq1f⟩ r hrin hadj hflag
          · exact absurd hceq hqq
    refine ⟨visitSucc, ?_⟩
    intro x y L
    induction L with
    | nil =>
      intro m sol steps hin hf1 hL hf2
      rw [SolverLoop_nil]
      refine ⟨false, m, sol, steps, rfl, SEvol_refl m, rfl, ?_, ?_⟩
      · intro hc
        simp at hc
      · intro _
        refine ⟨rfl, rfl, fun n hn => absurd hn (List.not_mem_nil n), ?_⟩
        intro qq _ hcase
        rw [hcase.2] at hcase
        simp at hcase
    | cons n rest ihL =>
      intro m sol steps hin hf1 hL hf2
      obtain ⟨hnin, hnadj, hnflag⟩ := hL n (List.mem_cons_self n rest)
      have hLrest : ∀ x2 ∈ rest, inb W H x2 ∧ adjacent (x, y) x2 ∧
          flagToward m (x, y) x2 = false :=
        fun x2 hx2 => hL x2 (List.mem_cons_of_mem n hx2)
      rw [SolverLoop_cons]
      obtain ⟨b, m2, sol2, steps2, hres, hEv, hExit, hTrue, hFalse⟩ :=
        visitSucc n.1 n.2 m sol steps hnin hf1
          (fun hv => hf2 n (List.mem_cons_self n rest) hv)
      rw [hres]
      cases b with
      | true =>
        obtain ⟨q, hq1, hq2, hq3, hq4, hq5, hq6, hq7⟩ := hTrue rfl
        refine ⟨true, m2, sol2 ++ [(x, y)], steps2 + 1, rfl, hEv, hExit, ?_, ?_⟩
        · intro _
          refine ⟨q ++ [(x, y)], by rw [hq1, List.append_assoc], by simp, ?_, ?_,
            ?_, ?_, ?_⟩
          · rcases q with _ | ⟨qh, qt⟩
            · exact absurd rfl hq2
            · simpa using hq3
          · rw [List.getLast?_concat]
          · rw [List.length_append, List.length_singleton]
            omega
          · rw [List.chain'_append]
            refine ⟨hq6, List.chain'_singleton _, ?_⟩
            intro a ha c hc
            rw [hq4] at ha
            rw [Option.mem_def] at ha hc
            injection ha with ha
            simp only [List.head?_cons, Option.some.injEq] at hc
            rw [← ha, ← hc]
            refine ⟨hnin, hin, hnadj, ?_⟩
            rw [SEvol_flagToward hEv]
            exact hnflag
          · intro c hc
            rcases List.mem_append.mp hc with hc1 | hc2
            · exact hq7 c hc1
            · rw [List.mem_singleton] at hc2
              rw [hc2]
              exact hin
        · intro hc
          simp at hc
      | false =>
        obtain ⟨hsol, hsteps, hnvis, hClo⟩ := hFalse rfl
        subst hsol
        subst hsteps
        have hf1b : unvisCount W H m2 ≤ f + 1 :=
          le_trans (Evol_unvisCount_le (Evol_of_SEvol hEv)) hf1
        have hLrest2 : ∀ x2 ∈ rest, inb W H x2 ∧ adjacent (x, y) x2 ∧
            flagToward m2 (x, y) x2 = false := by
          intro x2 hx2
          obtain ⟨h1, h2, h3⟩ := hLrest x2 hx2
          exact ⟨h1, h2, by rw [SEvol_flagToward hEv]; exact h3⟩
        have hf2b : ∀ x2 ∈ rest, (m2 x2.1 x2.2).visited = true →
            unvisCount W H m2 < f + 1 := by
          intro x2 hx2 hvx2
          rcases hbv : (m x2.1 x2.2).visited with _ | _
          · exact lt_of_lt_of_le
              (Evol_unvisCount_lt (Evol_of_SEvol hEv) (hLrest x2 hx2).1 hbv hvx2) hf1
          · exact lt_of_le_of_lt (Evol_unvisCount_le (Evol_of_SEvol hEv))
              (hf2 x2 (List.mem_cons_of_mem n hx2) hbv)
        obtain ⟨b3, m3, sol3, steps3, hres3, hEv3, hExit3, hTrue3, hFalse3⟩ :=
          ihL m2 sol2 steps2 hin hf1b hLrest2 hf2b
        refine ⟨b3, m3, sol3, steps3, hres3, SEvol_trans hEv hEv3,
          hExit3.trans hExit, ?_, ?_⟩
        · exact hTrue3
        · intro hb3
          obtain ⟨hsol3, hsteps3, hLvis3, hClo3⟩ := hFalse3 hb3
          refine ⟨hsol3, hsteps3, ?_, ?_⟩
          · intro x2 hx2
            rcases List.mem_cons.mp hx2 with rfl | hx2r
            · exact SEvol_visited hEv3 hnvis
            · exact hLvis3 x2 hx2r
          · intro qq hqin hcase r hrin hadj hflag
            rcases hbq : (m2 qq.1 qq.2).visited with _ | _
            · exact hClo3 qq hqin ⟨hcase.1, hbq⟩ r hrin hadj hflag
            · apply SEvol_visited hEv3
              apply hClo qq hqin (Or.inl ⟨hbq, hcase.2⟩) r hrin hadj
              rw [← SEvol_flagToward hEv3]
              exact hflag

/-! ## Solving a connected grid -/

theorem resetVisited_visited (m : MazeGrid) (a b : ℕ) :
    ((resetVisited m) a b).visited = false := rfl

theorem resetVisited_flagToward (m : MazeGrid) (p q : ℕ × ℕ) :
    flagToward (resetVisited m) p q = flagToward m p q := by
  unfold flagToward resetVisited
  split_ifs <;> rfl

theorem unvisCount_resetVisited (W H : ℕ) (m : MazeGrid) :
    unvisCount W H (resetVisited m) = W * H := by
  unfold unvisCount
  rw [Finset.filter_true_of_mem
    (fun x _ => (rfl : ((resetVisited m) x.1 x.2).visited = false))]
  unfold cellsFin
  rw [Finset.card_product, Finset.card_range, Finset.card_range]

/-- `SolveMaze` on any grid in which the ending cell is open-reachable
from the entrance cell, with fuel at least `W*H`: the solver returns
`true`, and the recorded `Solution_List` runs from the ending cell back
to the entrance cell through removed walls, with `Steps_to_Solve` one
less than its length. -/
theorem SolveMaze_spec (W H ex ey sx sy fuel : ℕ) (g : MazeGrid)
    (hen : inb W H (ex, ey)) (hsxin : inb W H (sx, sy))
    (hreach : openReach W H g (ex, ey) (sx, sy))
    (hfuel : W * H ≤ fuel) :
    ∃ st, SolveMaze fuel W H ex ey sx sy g = some (true, st) ∧
      st.sol ≠ [] ∧ st.sol.head? = some (sx, sy) ∧
      st.sol.getLast? = some (ex, ey) ∧
      st.steps + 1 = st.sol.length ∧
      List.Chain' (solStep W H g) st.sol ∧
      ∀ c ∈ st.sol, inb W H c := by
  obtain ⟨hV, _⟩ := sol_main W H sx sy hsxin fuel
  have hf1 : unvisCount W H (resetVisited g) ≤ fuel := by
    rw [unvisCount_resetVisited]
    exact hfuel
  have hf2 : ((resetVisited g) ex ey).visited = true →
      unvisCount W H (resetVisited g) < fuel := by
    intro hc
    rw [resetVisited_visited] at hc
    exact absurd hc (by simp)
  obtain ⟨b, m2, sol2, steps2, hres, hEv, hExit, hTrue, hFalse⟩ :=
    hV ex ey (resetVisited g) [] 0 hen hf1 hf2
  cases b with
  | false =>
    exfalso
    obtain ⟨_, _, _, hClo⟩ := hFalse rfl
    have hvis : (m2 ex ey).visited = true := (hFalse rfl).2.2.1
    have hprop : ∀ c, openReach W H g (ex, ey) c →
        (m2 c.1 c.2).visited = true := by
      intro c hc
      induction hc with
      | refl => exact hvis
      | @tail b2 c2 hab hstep ih =>
        apply hClo b2 hstep.1 (Or.inl ⟨ih, resetVisited_visited g _ _⟩)
          c2 hstep.2.1 hstep.2.2.1
        rw [SEvol_flagToward hEv, resetVisited_flagToward]
        exact hstep.2.2.2.1
    have h2 : (m2 sx sy).visited = true := hprop (sx, sy) hreach
    rw [hExit, resetVisited_visited] at h2
    exact Bool.false_ne_true h2
  | true =>
    obtain ⟨q, hq1, hq2, hq3, hq4, hq5, hq6, hq7⟩ := hTrue rfl
    have hq1b : sol2 = q := by rw [hq1, List.nil_append]
    refine ⟨⟨m2, sol2, steps2⟩, hres, ?_, ?_, ?_, ?_, ?_, ?_⟩
    · show sol2 ≠ []
      rw [hq1b]
      exact hq2
    · show sol2.head? = some (sx, sy)
      rw [hq1b]
      exact hq3
    · show sol2.getLast? = some (ex, ey)
      rw [hq1b]
      exact hq4
    · show steps2 + 1 = sol2.length
      rw [hq1b]
      omega
    · show List.Chain' (solStep W H g) sol2
      rw [hq1b]
      refine List.Chain'.imp ?_ hq6
      intro a c h
      refine ⟨h.1, h.2.1, h.2.2.1, ?_⟩
      rw [← resetVisited_flagToward g, ← SEvol_flagToward hEv]
      exact h.2.2.2
    · show ∀ c ∈ sol2, inb W H c
      rw [hq1b]
      exact hq7

/-- C3 — For every generated Grid, the Solver's output path is ordered
from the exit cell back to the entrance cell (index 0 is the exit cell
`(sx, sy)`, the last element is the entrance cell `(ex, ey)`), each
consecutive pair of entries is adjacent and separated by a removed wall
(both matched flags open), and `Steps_to_Solve` equals the path length
minus one. -/
theorem generated_solution_path_spec (ρ : ℕ → ℕ) (W H sx sy ex ey en exi fuel : ℕ)
    (hs : inb W H (sx, sy)) (he : inb W H (ex, ey))
    (hen : outFacing W H (ex, ey) en) (hexi : outFacing W H (sx, sy) exi)
    (hfuel : W * H ≤ fuel) :
    ∃ st, SolveMaze fuel W H ex ey sx sy (GeneratedGrid ρ W H sx sy ex ey en exi)
        = some (true, st) ∧
      st.sol ≠ [] ∧
      st.sol.head? = some (sx, sy) ∧
      st.sol.getLast? = some (ex, ey) ∧
      st.steps + 1 = st.sol.length ∧
      List.Chain' (fun a c => adjacent a c ∧
        flagToward (GeneratedGrid ρ W H sx sy ex ey en exi) a c = false ∧
        flagToward (GeneratedGrid ρ W H sx sy ex ey en exi) c a = false) st.sol := by
  obtain ⟨hPar, _, hRch, _⟩ := GeneratedGrid_spec ρ W H sx sy ex ey en exi hs hen hexi
  have hreach : openReach W H (GeneratedGrid ρ W H sx sy ex ey en exi)
      (ex, ey) (sx, sy) := openReach_symm (hRch (ex, ey) he)
  obtain ⟨st, h1, h2, h3, h4, h5, h6, h7⟩ :=
    SolveMaze_spec W H ex ey sx sy fuel _ he hs hreach hfuel
  refine ⟨st, h1, h2, h3, h4, h5, ?_⟩
  refine List.Chain'.imp ?_ h6
  intro a c h
  have hadj : adjacent a c := adjacent_symm h.2.2.1
  refine ⟨hadj, ?_, h.2.2.2⟩
  rw [hPar a c h.1 h.2.1 hadj]
  exact h.2.2.2

/-- Witness for `generated_solution_path_spec` at the concrete 2×1 maze
(exit cell `(1,0)` with a right-hand door, entrance cell `(0,0)` with a
left-hand door). -/
theorem generated_solution_path_spec_witness :
    ∃ st, SolveMaze 2 2 1 0 0 1 0 (GeneratedGrid (fun _ => 0) 2 1 1 0 0 0 3 1)
        = some (true, st) ∧
      st.sol ≠ [] ∧
      st.sol.head? = some (1, 0) ∧
      st.sol.getLast? = some (0, 0) ∧
      st.steps + 1 = st.sol.length ∧
      List.Chain' (fun a c => adjacent a c ∧
        flagToward (GeneratedGrid (fun _ => 0) 2 1 1 0 0 0 3 1) a c = false ∧
        flagToward (GeneratedGrid (fun _ => 0) 2 1 1 0 0 0 3 1) c a = false) st.sol :=
  generated_solution_path_spec (fun _ => 0) 2 1 1 0 0 0 3 1 2
    (by decide) (by decide) (by decide) (by decide) (by decide)

/-- C4 — For every Grid produced by the Generator, the Solver started at
the entrance cell always succeeds: it returns `true` and produces a
non-empty `Solution_List`; it never reports failure on such a Grid. -/
theorem generated_solver_succeeds (ρ : ℕ → ℕ) (W H sx sy ex ey en exi fuel : ℕ)
    (hs : inb W H (sx, sy)) (he : inb W H (ex, ey))
    (hen : outFacing W H (ex, ey) en) (hexi : outFacing W H (sx, sy) exi)
    (hfuel : W * H ≤ fuel) :
    ∃ st, SolveMaze fuel W H ex ey sx sy (GeneratedGrid ρ W H sx sy ex ey en exi)
        = some (true, st) ∧ st.sol ≠ [] := by
  obtain ⟨_, _, hRch, _⟩ := GeneratedGrid_spec ρ W H sx sy ex ey en exi hs hen hexi
  have hreach : openReach W H (GeneratedGrid ρ W H sx sy ex ey en exi)
      (ex, ey) (sx, sy) := openReach_symm (hRch (ex, ey) he)
  obtain ⟨st, h1, h2, _⟩ :=
    SolveMaze_spec W H ex ey sx sy fuel _ he hs hreach hfuel
  exact ⟨st, h1, h2⟩

/-- Witness for `generated_solver_succeeds` at the concrete 2×1 maze. -/
theorem generated_solver_succeeds_witness :
    ∃ st, SolveMaze 2 2 1 0 0 1 0 (GeneratedGrid (fun _ => 0) 2 1 1 0 0 0 3 1)
        = some (true, st) ∧ st.sol ≠ [] :=
  generated_solver_succeeds (fun _ => 0) 2 1 1 0 0 0 3 1 2
    (by decide) (by decide) (by decide) (by decide) (by decide)

/-! ## The navigator (`solver.js`)

The play window's state: the maze copied from the opener (visited flags
are reused by the navigator), `Current_Location` as a pair of JS numbers
(set to the sentinel `(-1, -1)` on finishing, hence modelled over `ℤ`),
the move and jump counters, and the ending-statistics panel (`none`
until `ShowStats` has run; it records the accuracy value shown).  A JS
number arising from `parseFloat` division is a float: `x/0` is
`Infinity` for `x > 0` and `NaN` for `0/0`, modelled by `JSNum`. -/

/-- A JS float as produced by the statistics arithmetic: an ordinary
(here: rational) value, `Infinity`, or `NaN`. -/
inductive JSNum where
  | num : ℚ → JSNum
  | inf : JSNum
  | nan : JSNum
deriving DecidableEq

/-- JS `parseFloat(a)/parseFloat(b)` for the two counters (naturals):
division by zero yields `Infinity` (or `NaN` for `0/0`) instead of
throwing. -/
def jsDiv (a b : ℕ) : JSNum :=
  if b = 0 then (if a = 0 then JSNum.nan else JSNum.inf)
  else JSNum.num ((a : ℚ) / (b : ℚ))

/-- Multiplication of the quotient by 100; `Infinity` and `NaN` absorb. -/
def jsMul100 : JSNum → JSNum
  | JSNum.num q => JSNum.num (q * 100)
  | JSNum.inf => JSNum.inf
  | JSNum.nan => JSNum.nan

/-- The accuracy value JS `ShowStats` renders:
`(parseFloat(Steps_to_Solve)/parseFloat(User_Moves))*100`. -/
def ShowStats (Steps_to_Solve User_Moves : ℕ) : JSNum :=
  jsMul100 (jsDiv Steps_to_Solve User_Moves)

structure NavCfg where
  W : ℕ
  H : ℕ
  Start_X : ℕ
  Start_Y : ℕ
  End_X : ℕ
  End_Y : ℕ
  Enter : ℕ
  Exit_Wall : ℕ
  Steps_to_Solve : ℕ

structure NavSt where
  Maze : MazeGrid
  Current_Location : ℤ × ℤ
  User_Moves : ℕ
  User_Jumps : ℕ
  livestats : Option JSNum

/-- A coordinate pair addresses a cell of the `W × H` grid (equivalently:
`document.getElementById(x + '_' + y)` finds a cell, and `Maze[x][y]` is
an array). -/
def inbZ (W H : ℕ) (p : ℤ × ℤ) : Prop :=
  0 ≤ p.1 ∧ p.1 < (W : ℤ) ∧ 0 ≤ p.2 ∧ p.2 < (H : ℤ)

instance (W H : ℕ) (p : ℤ × ℤ) : Decidable (inbZ W H p) := by
  unfold inbZ
  infer_instance

/-- JS `CheckStart(direction)`: at the starting cell, trying to leave
through the entrance door. -/
def CheckStart (cfg : NavCfg) (st : NavSt) (direction : ℕ) : Prop :=
  st.Current_Location.1 = (cfg.Start_X : ℤ) ∧
  st.Current_Location.2 = (cfg.Start_Y : ℤ) ∧ direction = cfg.Enter

instance (cfg : NavCfg) (st : NavSt) (direction : ℕ) :
    Decidable (CheckStart cfg st direction) := by
  unfold CheckStart
  infer_instance

/-- The test inside JS `CheckFinish(direction)`: at the ending cell,
leaving through the exit door. -/
def CheckFinish (cfg : NavCfg) (st : NavSt) (direction : ℕ) : Prop :=
  st.Current_Location.1 = (cfg.End_X : ℤ) ∧
  st.Current_Location.2 = (cfg.End_Y : ℤ) ∧ direction = cfg.Exit_Wall

instance (cfg : NavCfg) (st : NavSt) (direction : ℕ) :
    Decidable (CheckFinish cfg st direction) := by
  unfold CheckFinish
  infer_instance

/-- The committed part of a move (the JS lines after `CheckFinish`
returns false): update `Current_Location`, then `UpdatePosition()` marks
the new cell visited — throwing a `TypeError` if the new location is
outside the grid (`Maze[x]` or `Maze[x][y]` undefined) — and on success
`User_Moves` is incremented.  The `Bool` is true when the call ended in
an uncaught exception; mutations made before the throw are kept. -/
def moveCommit (W H : ℕ) (dx dy : ℤ) (st : NavSt) : NavSt × Bool :=
  if inbZ W H (st.Current_Location.1 + dx, st.Current_Location.2 + dy) then
    ({ st with
        Current_Location := (st.Current_Location.1 + dx, st.Current_Location.2 + dy),
        Maze := markVisited st.Maze (st.Current_Location.1 + dx).toNat
          (st.Current_Location.2 + dy).toNat,
        User_Moves := st.User_Moves + 1 }, false)
  else ({ st with Current_Location :=
    (st.Current_Location.1 + dx, st.Current_Location.2 + dy) }, true)

/-- Shared body of JS `MoveUp`/`MoveDown`/`MoveLeft`/`MoveRight` (the
four differ only in the wall side checked and the coordinate delta):
return if `CheckStart`; read `Maze[x][y][side]` — a `TypeError` if the
current location is outside the grid, the sentinel included; fall
through (no-op) if the wall is up; `ClearCurrentCell()` (display only);
if `CheckFinish` fires, set the sentinel location, run `ShowStats`, and
return without touching the counters; else commit the move. -/
def moveStep (cfg : NavCfg) (side : ℕ) (dx dy : ℤ) (st : NavSt) : NavSt × Bool :=
  if CheckStart cfg st side then (st, false)
  else if inbZ cfg.W cfg.H st.Current_Location then
    if wallSide (st.Maze st.Current_Location.1.toNat st.Current_Location.2.toNat)
        side = true then (st, false)
    else if CheckFinish cfg st side then
      ({ st with
          Current_Location := (-1, -1),
          livestats := some (ShowStats cfg.Steps_to_Solve st.User_Moves) }, false)
    else moveCommit cfg.W cfg.H dx dy st
  else (st, true)

def MoveUp (cfg : NavCfg) (st : NavSt) : NavSt × Bool := moveStep cfg 0 0 (-1) st

def MoveDown (cfg : NavCfg) (st : NavSt) : NavSt × Bool := moveStep cfg 2 0 1 st

def MoveLeft (cfg : NavCfg) (st : NavSt) : NavSt × Bool := moveStep cfg 3 (-1) 0 st

def MoveRight (cfg : NavCfg) (st : NavSt) : NavSt × Bool := moveStep cfg 1 1 0 st

/-- JS `JumpHere(cell_id)`: the clicked cell id encodes an in-bounds
coordinate pair `(w, h)`; if that cell has been visited, the player is
teleported there (`ClearCurrentCell` throws on the sentinel location —
`getElementById('-1_-1')` is null — before any modelled mutation), the
new location is marked visited by `UpdatePosition`, and `User_Jumps` is
incremented.  An unvisited target is a no-op. -/
def JumpHere (cfg : NavCfg) (w h : ℕ) (st : NavSt) : NavSt × Bool :=
  if w < cfg.W ∧ h < cfg.H then
    if (st.Maze w h).visited = true then
      if inbZ cfg.W cfg.H st.Current_Location then
        ({ st with
            Current_Location := ((w : ℤ), (h : ℤ)),
            Maze := markVisited st.Maze w h,
            User_Jumps := st.User_Jumps + 1 }, false)
      else (st, true)
    else (st, false)
  else (st, true)

/-- The `keyDown` dispatch: the move function whose wall side is `side`
(w/d/s/a for 0/1/2/3); other keys do nothing. -/
def moveOf (side : ℕ) (cfg : NavCfg) (st : NavSt) : NavSt × Bool :=
  if side = 0 then MoveUp cfg st
  else if side = 1 then MoveRight cfg st
  else if side = 2 then MoveDown cfg st
  else if side = 3 then MoveLeft cfg st
  else (st, false)

/-- One user interaction of the play window. -/
inductive NavEv where
  | up : NavEv
  | down : NavEv
  | left : NavEv
  | right : NavEv
  | jump : ℕ → ℕ → NavEv

def stepEv (cfg : NavCfg) (st : NavSt) : NavEv → NavSt
  | NavEv.up => (MoveUp cfg st).1
  | NavEv.down => (MoveDown cfg st).1
  | NavEv.left => (MoveLeft cfg st).1
  | NavEv.right => (MoveRight cfg st).1
  | NavEv.jump w h => (JumpHere cfg w h st).1

def playEvents (cfg : NavCfg) (st : NavSt) (evs : List NavEv) : NavSt :=
  evs.foldl (stepEv cfg) st

/-- The play window's load sequence: the maze cleanup loop resets every
visited flag, `Current_Location` starts at the starting cell, the
counters at zero, and `Start()` calls `UpdatePosition()`, marking the
starting cell visited. -/
def NavInit (cfg : NavCfg) (m : MazeGrid) : NavSt :=
  { Maze := markVisited (resetVisited m) cfg.Start_X cfg.Start_Y,
    Current_Location := ((cfg.Start_X : ℤ), (cfg.Start_Y : ℤ)),
    User_Moves := 0, User_Jumps := 0, livestats := none }

/-- The session is finished: the current location is the sentinel. -/
def Finished (st : NavSt) : Prop := st.Current_Location = (-1, -1)

/-! ## Navigator theorems -/

theorem resetVisited_wallSide (m : MazeGrid) (a b s : ℕ) :
    wallSide ((resetVisited m) a b) s = wallSide (m a b) s := by
  unfold resetVisited wallSide
  split_ifs <;> rfl

instance (st : NavSt) : Decidable (Finished st) := by
  unfold Finished
  infer_instance

/-- A move taken while standing on the ending cell through the exit door
(`CheckFinish` fires): the location becomes the sentinel, `ShowStats`
renders from the pre-finish counters, and nothing else changes. -/
theorem moveStep_finish (cfg : NavCfg) (side : ℕ) (dx dy : ℤ) (st : NavSt)
    (hcur : st.Current_Location = ((cfg.End_X : ℤ), (cfg.End_Y : ℤ)))
    (hW : cfg.End_X < cfg.W) (hH : cfg.End_Y < cfg.H)
    (hns : ¬ CheckStart cfg st side)
    (hopen : wallSide (st.Maze cfg.End_X cfg.End_Y) side = false)
    (hfin : side = cfg.Exit_Wall) :
    moveStep cfg side dx dy st =
      ({ st with
          Current_Location := (-1, -1),
          livestats := some (ShowStats cfg.Steps_to_Solve st.User_Moves) }, false) := by
  have hin : inbZ cfg.W cfg.H st.Current_Location := by
    unfold inbZ
    rw [hcur]
    refine ⟨Int.natCast_nonneg _, ?_, Int.natCast_nonneg _, ?_⟩
    · show (cfg.End_X : ℤ) < (cfg.W : ℤ)
      exact_mod_cast hW
    · show (cfg.End_Y : ℤ) < (cfg.H : ℤ)
      exact_mod_cast hH
  have htn1 : st.Current_Location.1.toNat = cfg.End_X := by
    rw [hcur]
    simp
  have htn2 : st.Current_Location.2.toNat = cfg.End_Y := by
    rw [hcur]
    simp
  have hcf : CheckFinish cfg st side := by
    unfold CheckFinish
    rw [hcur]
    exact ⟨rfl, rfl, hfin⟩
  unfold moveStep
  rw [if_neg hns, if_pos hin, htn1, htn2, hopen,
    if_neg Bool.false_ne_true, if_pos hcf]

/-- From a finished session (sentinel location), every move function
throws on the `Maze[-1]` lookup before mutating anything. -/
theorem moveStep_finished_noop (cfg : NavCfg) (side : ℕ) (dx dy : ℤ) (st : NavSt)
    (hfin : Finished st) : moveStep cfg side dx dy st = (st, true) := by
  unfold Finished at hfin
  have h1 : ¬ CheckStart cfg st side := by
    unfold CheckStart
    rw [hfin]
    intro hc
    have hx : (-1 : ℤ) = (cfg.Start_X : ℤ) := hc.1
    omega
  have h2 : ¬ inbZ cfg.W cfg.H st.Current_Location := by
    unfold inbZ
    rw [hfin]
    intro hc
    have hx : (0 : ℤ) ≤ -1 := hc.1
    omega
  unfold moveStep
  rw [if_neg h1, if_neg h2]

/-- From a finished session, `JumpHere` throws in `ClearCurrentCell`
(`getElementById('-1_-1')` is null) or falls through; either way the
modelled state is unchanged. -/
theorem JumpHere_finished_noop (cfg : NavCfg) (w v : ℕ) (st : NavSt)
    (hfin : Finished st) : (JumpHere cfg w v st).1 = st := by
  unfold Finished at hfin
  have h2 : ¬ inbZ cfg.W cfg.H st.Current_Location := by
    unfold inbZ
    rw [hfin]
    intro hc
    have hx : (0 : ℤ) ≤ -1 := hc.1
    omega
  unfold JumpHere
  split_ifs <;> rfl

theorem stepEv_finished (cfg : NavCfg) (st : NavSt) (hfin : Finished st) :
    ∀ ev, stepEv cfg st ev = st := by
  intro ev
  cases ev with
  | up =>
    show (MoveUp cfg st).1 = st
    unfold MoveUp
    rw [moveStep_finished_noop cfg 0 0 (-1) st hfin]
  | down =>
    show (MoveDown cfg st).1 = st
    unfold MoveDown
    rw [moveStep_finished_noop cfg 2 0 1 st hfin]
  | left =>
    show (MoveLeft cfg st).1 = st
    unfold MoveLeft
    rw [moveStep_finished_noop cfg 3 (-1) 0 st hfin]
  | right =>
    show (MoveRight cfg st).1 = st
    unfold MoveRight
    rw [moveStep_finished_noop cfg 1 1 0 st hfin]
  | jump w v => exact JumpHere_finished_noop cfg w v st hfin

theorem playEvents_finished (cfg : NavCfg) (st : NavSt) (hfin : Finished st) :
    ∀ evs, playEvents cfg st evs = st := by
  intro evs
  induction evs with
  | nil => rfl
  | cons e rest ih =>
    unfold playEvents at ih ⊢
    rw [List.foldl_cons, stepEv_finished cfg st hfin e]
    exact ih

/-- C6 — Once the player, standing on the ending cell, moves through the
exit's designated open side, the session transitions to `Finished`
exactly once: the current location becomes the sentinel `(-1, -1)`, the
maze's visited flags and the move and jump counters are untouched, the
ending statistics are rendered from the pre-finish counters, and every
subsequent sequence of move or `JumpHere` calls leaves the state exactly
unchanged. -/
theorem finish_once_then_noop (cfg : NavCfg) (st : NavSt)
    (hcur : st.Current_Location = ((cfg.End_X : ℤ), (cfg.End_Y : ℤ)))
    (hW : cfg.End_X < cfg.W) (hH : cfg.End_Y < cfg.H)
    (hside : cfg.Exit_Wall ≤ 3)
    (hns : ¬ CheckStart cfg st cfg.Exit_Wall)
    (hopen : wallSide (st.Maze cfg.End_X cfg.End_Y) cfg.Exit_Wall = false) :
    ∃ st2, moveOf cfg.Exit_Wall cfg st = (st2, false) ∧
      Finished st2 ∧
      st2.Maze = st.Maze ∧ st2.User_Moves = st.User_Moves ∧
      st2.User_Jumps = st.User_Jumps ∧
      st2.livestats = some (ShowStats cfg.Steps_to_Solve st.User_Moves) ∧
      ∀ evs, playEvents cfg st2 evs = st2 := by
  have hcases : cfg.Exit_Wall = 0 ∨ cfg.Exit_Wall = 1 ∨ cfg.Exit_Wall = 2 ∨
      cfg.Exit_Wall = 3 := by omega
  have hmv : moveOf cfg.Exit_Wall cfg st =
      ({ st with
          Current_Location := (-1, -1),
          livestats := some (ShowStats cfg.Steps_to_Solve st.User_Moves) }, false) := by
    rcases hcases with h | h | h | h <;>
      rw [h] at hns hopen <;> unfold moveOf <;> rw [h]
    · rw [if_pos rfl]
      exact moveStep_finish cfg 0 0 (-1) st hcur hW hH hns hopen h.symm
    · rw [if_neg (by omega), if_pos rfl]
      exact moveStep_finish cfg 1 1 0 st hcur hW hH hns hopen h.symm
    · rw [if_neg (by omega), if_neg (by omega), if_pos rfl]
      exact moveStep_finish cfg 2 0 1 st hcur hW hH hns hopen h.symm
    · rw [if_neg (by omega), if_neg (by omega), if_neg (by omega), if_pos rfl]
      exact moveStep_finish cfg 3 (-1) 0 st hcur hW hH hns hopen h.symm
  have hfin2 : Finished ({ st with
      Current_Location := (-1, -1),
      livestats := some (ShowStats cfg.Steps_to_Solve st.User_Moves) } : NavSt) := rfl
  exact ⟨_, hmv, hfin2, rfl, rfl, rfl, rfl,
    fun evs => playEvents_finished _ _ hfin2 evs⟩

/-- The 2 × 1 maze used by the navigator witnesses: door on the left of
the starting cell `(0,0)`, open internal wall between the cells, door on
the right of the ending cell `(1,0)`. -/
def mzW : MazeGrid := fun _ _ =>
  { top := true, right := false, bottom := true, left := false, visited := false }

def cfgW : NavCfg :=
  { W := 2, H := 1, Start_X := 0, Start_Y := 0, End_X := 1, End_Y := 0,
    Enter := 3, Exit_Wall := 1, Steps_to_Solve := 1 }

def stW : NavSt :=
  { Maze := mzW, Current_Location := (1, 0), User_Moves := 3, User_Jumps := 1,
    livestats := none }

/-- Witness for `finish_once_then_noop`: the player stands on the ending
cell of the 2 × 1 maze and moves right through the exit door. -/
theorem finish_once_then_noop_witness :
    ∃ st2, moveOf cfgW.Exit_Wall cfgW stW = (st2, false) ∧
      Finished st2 ∧
      st2.Maze = stW.Maze ∧ st2.User_Moves = stW.User_Moves ∧
      st2.User_Jumps = stW.User_Jumps ∧
      st2.livestats = some (ShowStats cfgW.Steps_to_Solve stW.User_Moves) ∧
      ∀ evs, playEvents cfgW st2 evs = st2 :=
  finish_once_then_noop cfgW stW (by decide) (by decide) (by decide) (by decide)
    (by decide) (by decide)

theorem moveStep_wall_noop (cfg : NavCfg) (side : ℕ) (dx dy : ℤ) (st : NavSt)
    (hin : inbZ cfg.W cfg.H st.Current_Location)
    (hwall : wallSide (st.Maze st.Current_Location.1.toNat
      st.Current_Location.2.toNat) side = true) :
    moveStep cfg side dx dy st = (st, false) := by
  unfold moveStep
  split_ifs <;> rfl

/-- C8 — In every session state whose current location is on the grid,
a move in a direction whose wall is up is a complete no-op: the state —
current location, both counters, every visited flag — is returned
unchanged (the four move functions fall straight through). -/
theorem move_into_wall_noop (cfg : NavCfg) (st : NavSt)
    (hin : inbZ cfg.W cfg.H st.Current_Location) :
    (wallSide (st.Maze st.Current_Location.1.toNat st.Current_Location.2.toNat) 0
        = true → MoveUp cfg st = (st, false)) ∧
    (wallSide (st.Maze st.Current_Location.1.toNat st.Current_Location.2.toNat) 1
        = true → MoveRight cfg st = (st, false)) ∧
    (wallSide (st.Maze st.Current_Location.1.toNat st.Current_Location.2.toNat) 2
        = true → MoveDown cfg st = (st, false)) ∧
    (wallSide (st.Maze st.Current_Location.1.toNat st.Current_Location.2.toNat) 3
        = true → MoveLeft cfg st = (st, false)) :=
  ⟨fun hw => moveStep_wall_noop cfg 0 0 (-1) st hin hw,
   fun hw => moveStep_wall_noop cfg 1 1 0 st hin hw,
   fun hw => moveStep_wall_noop cfg 2 0 1 st hin hw,
   fun hw => moveStep_wall_noop cfg 3 (-1) 0 st hin hw⟩

/-- Witness for `move_into_wall_noop`: at `(1,0)` of the 2 × 1 maze both
the top and the bottom walls are up; `MoveUp` and `MoveDown` change
nothing. -/
theorem move_into_wall_noop_witness :
    MoveUp cfgW stW = (stW, false) ∧ MoveDown cfgW stW = (stW, false) :=
  ⟨(move_into_wall_noop cfgW stW (by decide)).1 (by decide),
   (move_into_wall_noop cfgW stW (by decide)).2.2.1 (by decide)⟩

theorem moveStep_stats (cfg : NavCfg) (side : ℕ) (dx dy : ℤ) (st : NavSt) :
    (moveStep cfg side dx dy st).1.livestats = st.livestats ∨
      ((moveStep cfg side dx dy st).1.Current_Location = (-1, -1) ∧
        (moveStep cfg side dx dy st).1.livestats =
          some (ShowStats cfg.Steps_to_Solve st.User_Moves)) := by
  unfold moveStep moveCommit
  split_ifs with h1 h2 h3 h4 h5
  · exact Or.inl rfl
  · exact Or.inl rfl
  · exact Or.inr ⟨rfl, rfl⟩
  · exact Or.inl rfl
  · exact Or.inl rfl
  · exact Or.inl rfl

theorem JumpHere_stats (cfg : NavCfg) (w v : ℕ) (st : NavSt) :
    (JumpHere cfg w v st).1.livestats = st.livestats := by
  unfold JumpHere
  split_ifs <;> rfl

/-- C9 — The accuracy percentage is computed only on the transition to
`Finished` (any other interaction leaves the statistics panel alone; the
finishing move renders it), its value is
`Steps_to_Solve / User_Moves * 100`, and the division follows JS float
semantics instead of crashing: with `User_Moves = 0` the rendered value
is `Infinity` (or `NaN` when `Steps_to_Solve` is also 0), and with
`User_Moves > 0` it is the exact rational `s / n * 100`. -/
theorem accuracy_stats (cfg : NavCfg) (st : NavSt) (ev : NavEv) :
    ((stepEv cfg st ev).livestats = st.livestats ∨
      ((stepEv cfg st ev).Current_Location = (-1, -1) ∧
        (stepEv cfg st ev).livestats =
          some (ShowStats cfg.Steps_to_Solve st.User_Moves))) ∧
    (∀ s : ℕ, ShowStats s 0 = JSNum.inf ∨ ShowStats s 0 = JSNum.nan) ∧
    (∀ s n : ℕ, 0 < n →
      ShowStats s n = JSNum.num ((s : ℚ) / (n : ℚ) * 100)) := by
  refine ⟨?_, ?_, ?_⟩
  · cases ev with
    | up => exact moveStep_stats cfg 0 0 (-1) st
    | down => exact moveStep_stats cfg 2 0 1 st
    | left => exact moveStep_stats cfg 3 (-1) 0 st
    | right => exact moveStep_stats cfg 1 1 0 st
    | jump w v => exact Or.inl (JumpHere_stats cfg w v st)
  · intro s
    rcases Nat.eq_zero_or_pos s with hs | hs
    · right
      rw [hs]
      rfl
    · left
      unfold ShowStats jsDiv
      rw [if_pos rfl, if_neg (by omega)]
      rfl
  · intro s n hn
    unfold ShowStats jsDiv
    rw [if_neg (by omega)]
    rfl

/-- Witness for `accuracy_stats` at a concrete state and event, with the
division facts instantiated at `1/0`, `0/0` and `1/2`. -/
theorem accuracy_stats_witness :
    ((stepEv cfgW stW NavEv.up).livestats = stW.livestats ∨
      ((stepEv cfgW stW NavEv.up).Current_Location = (-1, -1) ∧
        (stepEv cfgW stW NavEv.up).livestats =
          some (ShowStats cfgW.Steps_to_Solve stW.User_Moves))) ∧
    (ShowStats 1 0 = JSNum.inf ∨ ShowStats 1 0 = JSNum.nan) ∧
    ShowStats 1 2 = JSNum.num ((1 : ℚ) / (2 : ℚ) * 100) :=
  ⟨(accuracy_stats cfgW stW NavEv.up).1,
   (accuracy_stats cfgW stW NavEv.up).2.1 1,
   (accuracy_stats cfgW stW NavEv.up).2.2 1 2 (by decide)⟩

/-- Invariant for claim C10: the starting cell's outward walls are
closed apart from the entrance door (walls never change during play),
and while no move has been accepted the player still stands on the
starting cell and it is the only visited cell. -/
def NavInv (cfg : NavCfg) (st : NavSt) : Prop :=
  (∀ side, side ≤ 3 → outFacing cfg.W cfg.H (cfg.Start_X, cfg.Start_Y) side →
    wallSide (st.Maze cfg.Start_X cfg.Start_Y) side = false → side = cfg.Enter) ∧
  (st.User_Moves = 0 →
    st.Current_Location = ((cfg.Start_X : ℤ), (cfg.Start_Y : ℤ)) ∧
    ∀ w v, w < cfg.W → v < cfg.H → (st.Maze w v).visited = true →
      w = cfg.Start_X ∧ v = cfg.Start_Y)

theorem NavInv_init (cfg : NavCfg) (m : MazeGrid)
    (hdoor : ∀ side, side ≤ 3 →
      outFacing cfg.W cfg.H (cfg.Start_X, cfg.Start_Y) side →
      wallSide (m cfg.Start_X cfg.Start_Y) side = false → side = cfg.Enter) :
    NavInv cfg (NavInit cfg m) := by
  constructor
  · intro side hle hout hopen
    have h2 : wallSide ((markVisited (resetVisited m) cfg.Start_X cfg.Start_Y)
        cfg.Start_X cfg.Start_Y) side = false := hopen
    rw [markVisited_walls, resetVisited_wallSide] at h2
    exact hdoor side hle hout h2
  · intro _
    refine ⟨rfl, ?_⟩
    intro w v hw hv hvis
    by_cases hq : w = cfg.Start_X ∧ v = cfg.Start_Y
    · exact hq
    · exfalso
      have hvis2 : ((markVisited (resetVisited m) cfg.Start_X cfg.Start_Y)
          w v).visited = true := hvis
      rw [markVisited_other _ _ _ hq] at hvis2
      exact absurd hvis2 (by simp [resetVisited])

theorem NavInv_moveStep (cfg : NavCfg) (side : ℕ) (dx dy : ℤ) (st : NavSt)
    (hSW : cfg.Start_X < cfg.W) (hSH : cfg.Start_Y < cfg.H)
    (hne : ¬(cfg.Start_X = cfg.End_X ∧ cfg.Start_Y = cfg.End_Y))
    (hdir : (side = 0 ∧ dx = 0 ∧ dy = -1) ∨ (side = 1 ∧ dx = 1 ∧ dy = 0) ∨
      (side = 2 ∧ dx = 0 ∧ dy = 1) ∨ (side = 3 ∧ dx = -1 ∧ dy = 0))
    (hInv : NavInv cfg st) : NavInv cfg (moveStep cfg side dx dy st).1 := by
  obtain ⟨hWalls, hZero⟩ := hInv
  unfold moveStep moveCommit
  split_ifs with h1 h2 h3 h4 h5
  · exact ⟨hWalls, hZero⟩
  · exact ⟨hWalls, hZero⟩
  · -- the finishing branch: with no accepted move the player stands on
    -- the starting cell, which is not the ending cell
    constructor
    · exact hWalls
    · intro hm0
      exfalso
      have hm0' : st.User_Moves = 0 := hm0
      obtain ⟨hcur, _⟩ := hZero hm0'
      obtain ⟨he1, he2, _⟩ := h4
      rw [hcur] at he1 he2
      have he1' : (cfg.Start_X : ℤ) = (cfg.End_X : ℤ) := he1
      have he2' : (cfg.Start_Y : ℤ) = (cfg.End_Y : ℤ) := he2
      exact hne ⟨by exact_mod_cast he1', by exact_mod_cast he2'⟩
  · -- an accepted move: the counter becomes positive
    constructor
    · intro s hle hout hopen
      apply hWalls s hle hout
      have hopen2 : wallSide ((markVisited st.Maze
          (st.Current_Location.1 + dx).toNat (st.Current_Location.2 + dy).toNat)
          cfg.Start_X cfg.Start_Y) s = false := hopen
      rw [markVisited_walls] at hopen2
      exact hopen2
    · intro hm0
      exfalso
      have hm0' : st.User_Moves + 1 = 0 := hm0
      omega
  · -- the out-of-bounds commit (UpdatePosition throws): impossible with
    -- no accepted move, as only the entrance door is open outward and
    -- CheckStart already blocked it
    constructor
    · exact hWalls
    · intro hm0
      exfalso
      have hm0' : st.User_Moves = 0 := hm0
      obtain ⟨hcur, _⟩ := hZero hm0'
      have h3' : ¬(wallSide (st.Maze cfg.Start_X cfg.Start_Y) side = true) := by
        rw [hcur] at h3
        exact h3
      have hwopen : wallSide (st.Maze cfg.Start_X cfg.Start_Y) side = false :=
        Bool.eq_false_iff.mpr h3'
      have h5' : ¬ ((0 : ℤ) ≤ (cfg.Start_X : ℤ) + dx ∧
          (cfg.Start_X : ℤ) + dx < (cfg.W : ℤ) ∧
          (0 : ℤ) ≤ (cfg.Start_Y : ℤ) + dy ∧
          (cfg.Start_Y : ℤ) + dy < (cfg.H : ℤ)) := by
        rw [hcur] at h5
        exact h5
      have hout : outFacing cfg.W cfg.H (cfg.Start_X, cfg.Start_Y) side := by
        show (side = 0 ∧ cfg.Start_Y = 0) ∨ (side = 1 ∧ cfg.W ≤ cfg.Start_X + 1) ∨
          (side = 2 ∧ cfg.H ≤ cfg.Start_Y + 1) ∨ (side = 3 ∧ cfg.Start_X = 0)
        rcases hdir with ⟨hs, hx, hy⟩ | ⟨hs, hx, hy⟩ | ⟨hs, hx, hy⟩ | ⟨hs, hx, hy⟩ <;>
          rw [hs] <;> rw [hx, hy] at h5' <;> omega
      have hEnter : side = cfg.Enter :=
        hWalls side (by rcases hdir with ⟨hs, _⟩ | ⟨hs, _⟩ | ⟨hs, _⟩ | ⟨hs, _⟩ <;>
          rw [hs] <;> omega) hout hwopen
      apply h1
      unfold CheckStart
      rw [hcur]
      exact ⟨rfl, rfl, hEnter⟩
  · exact ⟨hWalls, hZero⟩

theorem NavInv_JumpHere (cfg : NavCfg) (w v : ℕ) (st : NavSt)
    (hInv : NavInv cfg st) : NavInv cfg (JumpHere cfg w v st).1 := by
  obtain ⟨hWalls, hZero⟩ := hInv
  unfold JumpHere
  split_ifs with ha hb hc
  · constructor
    · intro s hle hout hopen
      apply hWalls s hle hout
      have hopen2 : wallSide ((markVisited st.Maze w v)
          cfg.Start_X cfg.Start_Y) s = false := hopen
      rw [markVisited_walls] at hopen2
      exact hopen2
    · intro hm0
      have hm0' : st.User_Moves = 0 := hm0
      obtain ⟨hcur, hvis⟩ := hZero hm0'
      obtain ⟨hwx, hwy⟩ := hvis w v ha.1 ha.2 hb
      constructor
      · show ((w : ℤ), (v : ℤ)) = ((cfg.Start_X : ℤ), (cfg.Start_Y : ℤ))
        rw [hwx, hwy]
      · intro w2 v2 hw2 hv2 hvis2
        have hvis3 : ((markVisited st.Maze w v) w2 v2).visited = true := hvis2
        by_cases heq : w2 = w ∧ v2 = v
        · rw [heq.1, heq.2]
          exact ⟨hwx, hwy⟩
        · rw [markVisited_other _ _ _ heq] at hvis3
          exact hvis w2 v2 hw2 hv2 hvis3
  · exact ⟨hWalls, hZero⟩
  · exact ⟨hWalls, hZero⟩
  · exact ⟨hWalls, hZero⟩

theorem NavInv_stepEv (cfg : NavCfg) (st : NavSt) (ev : NavEv)
    (hSW : cfg.Start_X < cfg.W) (hSH : cfg.Start_Y < cfg.H)
    (hne : ¬(cfg.Start_X = cfg.End_X ∧ cfg.Start_Y = cfg.End_Y))
    (hInv : NavInv cfg st) : NavInv cfg (stepEv cfg st ev) := by
  cases ev with
  | up =>
    exact NavInv_moveStep cfg 0 0 (-1) st hSW hSH hne (Or.inl ⟨rfl, rfl, rfl⟩) hInv
  | down =>
    exact NavInv_moveStep cfg 2 0 1 st hSW hSH hne
      (Or.inr (Or.inr (Or.inl ⟨rfl, rfl, rfl⟩))) hInv
  | left =>
    exact NavInv_moveStep cfg 3 (-1) 0 st hSW hSH hne
      (Or.inr (Or.inr (Or.inr ⟨rfl, rfl, rfl⟩))) hInv
  | right =>
    exact NavInv_moveStep cfg 1 1 0 st hSW hSH hne
      (Or.inr (Or.inl ⟨rfl, rfl, rfl⟩)) hInv
  | jump w v => exact NavInv_JumpHere cfg w v st hInv

theorem NavInv_play (cfg : NavCfg)
    (hSW : cfg.Start_X < cfg.W) (hSH : cfg.Start_Y < cfg.H)
    (hne : ¬(cfg.Start_X = cfg.End_X ∧ cfg.Start_Y = cfg.End_Y)) :
    ∀ evs st, NavInv cfg st → NavInv cfg (playEvents cfg st evs) := by
  intro evs
  induction evs with
  | nil => exact fun st hInv => hInv
  | cons e rest ih =>
    intro st hInv
    unfold playEvents
    rw [List.foldl_cons]
    exact ih (stepEv cfg st e) (NavInv_stepEv cfg st e hSW hSH hne hInv)

/-- C10 — In every session reachable from loading a maze whose starting
and ending cells differ (and whose starting cell opens outward only
through the entrance door), a `Finished` state has `User_Moves ≥ 1`: a
cell other than the start becomes visited only through an accepted move,
jumps only target visited cells, so the finishing move presupposes an
accepted move and the accuracy divisor is nonzero at end-of-game
statistics. -/
theorem finished_moves_positive (cfg : NavCfg) (m : MazeGrid) (evs : List NavEv)
    (hSW : cfg.Start_X < cfg.W) (hSH : cfg.Start_Y < cfg.H)
    (hne : ¬(cfg.Start_X = cfg.End_X ∧ cfg.Start_Y = cfg.End_Y))
    (hdoor : ∀ side, side ≤ 3 →
      outFacing cfg.W cfg.H (cfg.Start_X, cfg.Start_Y) side →
      wallSide (m cfg.Start_X cfg.Start_Y) side = false → side = cfg.Enter)
    (hfin : Finished (playEvents cfg (NavInit cfg m) evs)) :
    1 ≤ (playEvents cfg (NavInit cfg m) evs).User_Moves := by
  have hInv := NavInv_play cfg hSW hSH hne evs (NavInit cfg m)
    (NavInv_init cfg m hdoor)
  by_contra hcon
  have hm0 : (playEvents cfg (NavInit cfg m) evs).User_Moves = 0 := by omega
  obtain ⟨hcur, _⟩ := hInv.2 hm0
  unfold Finished at hfin
  rw [hfin] at hcur
  have h1 : (-1 : ℤ) = (cfg.Start_X : ℤ) := congrArg Prod.fst hcur
  omega

/-- Witness for `finished_moves_positive`: on the 2 × 1 maze, moving
right twice finishes the session with one accepted move. -/
theorem finished_moves_positive_witness :
    1 ≤ (playEvents cfgW (NavInit cfgW mzW)
      [NavEv.right, NavEv.right]).User_Moves :=
  finished_moves_positive cfgW mzW [NavEv.right, NavEv.right]
    (by decide) (by decide) (by decide) (by decide) (by decide)

/-! ## `LoadMaze` and its validation (`maze.js`) -/

/-- The generator page's shared state observable by the play and answer
windows: the `Maze` grid (`none` while it holds no populated grid, as
after `ResetValues`' bare `new Array(WIDTH)`), `Solution_List` and
`Steps_to_Solve`. -/
structure Globals where
  Maze : Option MazeGrid
  Solution_List : List (ℕ × ℕ)
  Steps_to_Solve : ℕ

/-- The parameter values read from the GUI at the top of `LoadMaze`
(`BORDER_WIDTH`'s read is commented out, so it keeps its current global
value, but it is still validated); `parseInt` results may be zero or
negative, hence `ℤ` for the dimension-like ones. -/
structure GenParams where
  STARTING_X : ℕ
  STARTING_Y : ℕ
  ENTRANCE_X : ℕ
  ENTRANCE_Y : ℕ
  WIDTH : ℤ
  HEIGHT : ℤ
  BORDER_WIDTH : ℤ
  CELL_SIZE : ℤ
  ENTER : ℕ
  EXIT_WALL : ℕ

/-- JS `ResetValues()`: wipe the shared state. -/
def ResetValues : Globals → Globals :=
  fun _ => { Maze := none, Solution_List := [], Steps_to_Solve := 0 }

/-- JS `ICanHazErrors()`: the validation run inside `LoadMaze`. -/
def ICanHazErrors (p : GenParams) : Bool :=
  if p.STARTING_X = p.ENTRANCE_X ∧ p.STARTING_Y = p.ENTRANCE_Y then true
  else if p.HEIGHT ≤ 0 ∨ p.WIDTH ≤ 0 then true
  else if p.BORDER_WIDTH ≤ 0 then true
  else if p.BORDER_WIDTH ≥ p.CELL_SIZE then true
  else if p.CELL_SIZE < 4 then true
  else false

/-- JS `LoadMaze()`: it calls `ResetValues()` FIRST, then reads the
parameters, then validates with `ICanHazErrors()` and returns early on
an error — with the shared state already wiped.  On success it
allocates the all-walls grid, carves with `GenerateMaze`, installs the
doors (together `GeneratedGrid`) and runs `SolveMaze`, which fills
`Solution_List` and `Steps_to_Solve`. -/
def LoadMaze (ρ : ℕ → ℕ) (p : GenParams) (g : Globals) : Globals :=
  let g1 := ResetValues g
  if ICanHazErrors p = true then g1
  else
    let W := p.WIDTH.toNat
    let H := p.HEIGHT.toNat
    let m := GeneratedGrid ρ W H p.STARTING_X p.STARTING_Y p.ENTRANCE_X p.ENTRANCE_Y
      p.ENTER p.EXIT_WALL
    match SolveMaze (W * H) W H p.ENTRANCE_X p.ENTRANCE_Y p.STARTING_X p.STARTING_Y m with
    | some (_, st) =>
      { Maze := some st.maze, Solution_List := st.sol, Steps_to_Solve := st.steps }
    | none => { Maze := some m, Solution_List := [], Steps_to_Solve := 0 }

/-- A `LoadMaze` parameter set whose entrance and exit cells coincide
(otherwise well-formed). -/
def badParams : GenParams :=
  { STARTING_X := 0, STARTING_Y := 0, ENTRANCE_X := 0, ENTRANCE_Y := 0,
    WIDTH := 5, HEIGHT := 5, BORDER_WIDTH := 1, CELL_SIZE := 10,
    ENTER := 3, EXIT_WALL := 1 }

/-- A shared state holding the results of an earlier, successful
generation round. -/
def priorGlobals : Globals :=
  { Maze := none, Solution_List := [(0, 0), (1, 0)], Steps_to_Solve := 5 }

/-- C7 counterexample — a `generate` call with entrance = exit fails
validation, yet the caller's previous `Solution_List` and
`Steps_to_Solve` are observably destroyed by the failed call:
`ResetValues` runs before `ICanHazErrors`. -/
theorem loadMaze_failed_call_mutates :
    ICanHazErrors badParams = true ∧
    priorGlobals.Steps_to_Solve = 5 ∧
    (LoadMaze (fun _ => 0) badParams priorGlobals).Steps_to_Solve = 0 ∧
    priorGlobals.Solution_List = [(0, 0), (1, 0)] ∧
    (LoadMaze (fun _ => 0) badParams priorGlobals).Solution_List = [] := by
  refine ⟨by decide, rfl, by decide, rfl, by decide⟩

/-- C7 (amended) — a `generate` call rejected by validation (entrance =
exit always is) fails before any carving: no Grid is allocated or
mutated.  But the call is not mutation-free: `ResetValues` has already
wiped the shared state, so the post-state is the reset state
(`Maze` unallocated, `Solution_List` empty, `Steps_to_Solve` zero),
not the caller's previous state. -/
theorem loadMaze_failed_call_resets (ρ : ℕ → ℕ) (p : GenParams) (g : Globals)
    (herr : (p.STARTING_X = p.ENTRANCE_X ∧ p.STARTING_Y = p.ENTRANCE_Y) ∨
      ICanHazErrors p = true) :
    ICanHazErrors p = true ∧
    LoadMaze ρ p g = { Maze := none, Solution_List := [], Steps_to_Solve := 0 } := by
  have h : ICanHazErrors p = true := by
    rcases herr with h | h
    · unfold ICanHazErrors
      rw [if_pos h]
    · exact h
  refine ⟨h, ?_⟩
  unfold LoadMaze
  rw [if_pos h]
  rfl

/-- Witness for `loadMaze_failed_call_resets` at the concrete parameter
set with entrance = exit. -/
theorem loadMaze_failed_call_resets_witness :
    ICanHazErrors badParams = true ∧
    LoadMaze (fun _ => 0) badParams priorGlobals =
      { Maze := none, Solution_List := [], Steps_to_Solve := 0 } :=
  loadMaze_failed_call_resets (fun _ => 0) badParams priorGlobals (Or.inl (by decide))

end MazeApp
